import Mathlib

/-!
Verification of the r10insta headline layout engine.

JavaScript strings are modelled as `List Char` (sequences of Unicode code
points; every character handled by this code base lives in the BMP, where
JS `length` coincides with the number of code points).  Floating-point
constants of the source (`0.58`, `0.62`, `0.32 * 76`, the `maxLength * 0.6`
threshold and `words.length * 0.3`) are modelled as exact rationals; at the
integer comparisons the source performs, the rational and the IEEE-double
computation agree for all realistic magnitudes.
-/

/-- A JavaScript string, as its list of characters. -/
abbrev JStr := List Char

/-- The character class of the JS regex `\s` (whitespace). -/
def isJsSpace (c : Char) : Bool :=
  let n := c.toNat
  n == 32 || n == 9 || n == 10 || n == 13 || n == 11 || n == 12 ||
  n == 160 || n == 5760 || (decide (8192 ≤ n) && decide (n ≤ 8202)) ||
  n == 8232 || n == 8233 || n == 8239 || n == 8287 || n == 12288 || n == 65279

/-- The character class of the JS regex `\w` (`[A-Za-z0-9_]`). -/
def isWordCharJS (c : Char) : Bool :=
  let n := c.toNat
  (decide (97 ≤ n) && decide (n ≤ 122)) || (decide (65 ≤ n) && decide (n ≤ 90)) ||
  (decide (48 ≤ n) && decide (n ≤ 57)) || n == 95

/-- JS `String.prototype.toLowerCase`, restricted to the Basic Latin and
Latin-1 repertoire this code base processes (other characters pass through). -/
def jsLower (c : Char) : Char :=
  let n := c.toNat
  if 65 ≤ n ∧ n ≤ 90 then Char.ofNat (n + 32)
  else if 192 ≤ n ∧ n ≤ 222 ∧ n ≠ 215 then Char.ofNat (n + 32)
  else c

def jsLowerStr (s : JStr) : JStr := s.map jsLower

/-- Models `normalize('NFD').replace(/[̀-ͯ]/g,'')` on a lowercase
Latin string: strips the accent of each precomposed lowercase Latin letter. -/
def deaccent (c : Char) : Char :=
  match c with
  | 'á' | 'à' | 'â' | 'ã' | 'ä' => 'a'
  | 'é' | 'è' | 'ê' | 'ë' => 'e'
  | 'í' | 'ì' | 'î' | 'ï' => 'i'
  | 'ó' | 'ò' | 'ô' | 'õ' | 'ö' => 'o'
  | 'ú' | 'ù' | 'û' | 'ü' => 'u'
  | 'ç' => 'c'
  | 'ñ' => 'n'
  | _ => c

/-- `word.toLowerCase().normalize('NFD').replace(/[̀-ͯ]/g, '')`. -/
def normKey (s : JStr) : JStr := (s.map jsLower).map deaccent

/-- JS `trim()` (drops `\s` characters at both ends). -/
def jsTrim (l : JStr) : JStr :=
  ((l.dropWhile isJsSpace).reverse.dropWhile isJsSpace).reverse

/-- Worker for `collapseWs`; the flag records whether the previous character
was whitespace (i.e. we are inside a run already replaced by a space). -/
def collapseGo (prevWs : Bool) : JStr → JStr
  | [] => []
  | c :: rest =>
    if isJsSpace c then
      if prevWs then collapseGo true rest else ' ' :: collapseGo true rest
    else c :: collapseGo false rest

/-- JS `replace(/\s+/g, ' ')`: every maximal whitespace run becomes one space. -/
def collapseWs (l : JStr) : JStr := collapseGo false l

/-- JS `split(' ')` (split on the exact one-space separator, keeping empties). -/
def splitSpace : JStr → List JStr
  | [] => [[]]
  | c :: r =>
    if c = ' ' then [] :: splitSpace r
    else
      match splitSpace r with
      | h :: t => (c :: h) :: t
      | [] => [[c]]

/-- JS `join(' ')`. -/
def joinSpace : List JStr → JStr
  | [] => []
  | [w] => w
  | w :: rest => w ++ ' ' :: joinSpace rest

/-- JS `String.prototype.includes` (substring containment). -/
def containsSub (s pat : JStr) : Bool :=
  if pat.isPrefixOf s then true
  else
    match s with
    | [] => false
    | _ :: r => containsSub r pat

/-- The editorial colour table of `server.js` (object literal, exact). -/
def editorialColors : List (JStr × JStr) :=
  [(("polícia").data, ("#dc2626").data),
   (("política").data, ("#2563eb").data),
   (("esporte").data, ("#16a34a").data),
   (("entretenimento").data, ("#9333ea").data),
   (("geral").data, ("#ea580c").data),
   (("default").data, ("#ea580c").data)]

/-- The member names of `Object.prototype` in Node (V8).  `editorialColors`
is an object literal, so the property read `editorialColors[key]` falls back
to these when `key` is not an own property, and each of them yields a truthy
non-string value (a function, or the prototype object itself for
`__proto__`). -/
def objectProtoProps : List JStr :=
  [("constructor").data, ("hasOwnProperty").data, ("isPrototypeOf").data,
   ("propertyIsEnumerable").data, ("toLocaleString").data, ("toString").data,
   ("valueOf").data, ("__defineGetter__").data, ("__defineSetter__").data,
   ("__lookupGetter__").data, ("__lookupSetter__").data, ("__proto__").data]

/-- The value of the JS property read `editorialColors[key]`: a string own
property, an inherited `Object.prototype` member (truthy, not a string,
carrying the member's name), or `undefined`. -/
inductive JsProp where
  | str : JStr → JsProp
  | protoMember : JStr → JsProp
  | undef : JsProp
deriving DecidableEq

/-- `editorialColors[key]`, including the prototype chain of the object
literal. -/
def lookupColor (key : JStr) : JsProp :=
  match editorialColors.find? (fun e => e.1 == key) with
  | some e => JsProp.str e.2
  | none => if key ∈ objectProtoProps then JsProp.protoMember key else JsProp.undef

/-- JS truthiness of such a value: `undefined` and the empty string are
falsy; functions and objects are truthy. -/
def jsTruthy : JsProp → Bool
  | JsProp.str s => !s.isEmpty
  | JsProp.protoMember _ => true
  | JsProp.undef => false

/-- `const categoriaParaCor = categoria || 'geral';
    const barColor = editorialColors[categoriaParaCor] || editorialColors['default'];`
(`none` models an absent/null category; the empty string is falsy too). -/
def barColor (categoria : Option JStr) : JsProp :=
  let key := match categoria with
    | none => ("geral").data
    | some s => if s = [] then ("geral").data else s
  if jsTruthy (lookupColor key) then lookupColor key
  else lookupColor (("default").data)

/-- C8 counterexample: the claim's "every other category maps to the default
orange" is false of the program.  `editorialColors` is an object literal, so
the read `editorialColors[categoria]` consults the `Object.prototype` chain:
the request-supplied category `"toString"` yields the inherited (truthy)
`toString` function, which the `||` fallback keeps — not `#ea580c`. -/
theorem c8_counterexample :
    barColor (some (("toString").data)) = JsProp.protoMember (("toString").data) ∧
    barColor (some (("toString").data)) ≠ JsProp.str (("#ea580c").data) := by decide

/-- C8 (amended): the mapping sends "polícia" to `#dc2626`, "política" to
`#2563eb`, "esporte" to `#16a34a`, "entretenimento" to `#9333ea`, and an
absent or empty category — as well as every unrecognized category that is
not an `Object.prototype` member name — to the default orange `#ea580c`;
prototype member names instead yield the inherited member. -/
theorem c8_editorial_colors :
    barColor (some (("polícia").data)) = JsProp.str (("#dc2626").data) ∧
    barColor (some (("política").data)) = JsProp.str (("#2563eb").data) ∧
    barColor (some (("esporte").data)) = JsProp.str (("#16a34a").data) ∧
    barColor (some (("entretenimento").data)) = JsProp.str (("#9333ea").data) ∧
    barColor none = JsProp.str (("#ea580c").data) ∧
    ∀ c : JStr,
      c ∉ [("polícia").data, ("política").data, ("esporte").data,
           ("entretenimento").data] →
      c ∉ objectProtoProps →
      barColor (some c) = JsProp.str (("#ea580c").data) := by
  refine ⟨by decide, by decide, by decide, by decide, by decide, ?_⟩
  intro c hc hp
  simp only [List.mem_cons, List.not_mem_nil, or_false, not_or] at hc
  obtain ⟨h1, h2, h3, h4⟩ := hc
  by_cases hnil : c = []
  · subst hnil
    decide
  · by_cases hg : c = ("geral").data
    · subst hg
      decide
    · by_cases hd : c = ("default").data
      · subst hd
        decide
      · have hfind : editorialColors.find? (fun e => e.1 == c) = none := by
          rw [List.find?_eq_none]
          intro e he
          fin_cases he <;> simp only [beq_iff_eq]
          · exact fun h => h1 h.symm
          · exact fun h => h2 h.symm
          · exact fun h => h3 h.symm
          · exact fun h => h4 h.symm
          · exact fun h => hg h.symm
          · exact fun h => hd h.symm
        have hlc : lookupColor c = JsProp.undef := by
          unfold lookupColor
          rw [hfind, if_neg hp]
        unfold barColor
        dsimp only
        rw [if_neg hnil, hlc, if_neg (by decide)]
        decide

/-- Witness for C8 at the concrete unrecognized category "desconhecida". -/
theorem c8_editorial_colors_witness :
    barColor (some (("desconhecida").data)) = JsProp.str (("#ea580c").data) :=
  c8_editorial_colors.2.2.2.2.2 (("desconhecida").data) (by decide) (by decide)

/-! ## Emphasis selector (`findKeywords`, `server.js`) -/

/-- `findKeywords`' stop-word list. -/
def fkStopWords : List JStr :=
  ["de", "da", "do", "em", "na", "no", "com", "para", "por", "a", "o", "e",
   "que", "um", "uma", "se", "foi", "ser"].map (fun s => s.data)

/-- `/^[A-ZÁÀÂÃÉÊÍÓÔÕÚÇ]/.test(word) && word.length > 2`. -/
def isProperNoun (w : JStr) : Bool :=
  (match w.head? with
   | some c =>
     (decide (65 ≤ c.toNat) && decide (c.toNat ≤ 90)) ||
     ['Á', 'À', 'Â', 'Ã', 'É', 'Ê', 'Í', 'Ó', 'Ô', 'Õ', 'Ú', 'Ç'].contains c
   | none => false) && decide (2 < w.length)

def fkLocations : List JStr :=
  ["Teresina", "Piauí", "Brasil", "Brasília", "Pedro II", "Parnaíba", "Picos",
   "Regional", "Nacional", "Estadual", "Municipal"].map (fun s => s.data)

def isLocation (w : JStr) : Bool :=
  fkLocations.any (fun loc => containsSub (normKey w) (normKey loc))

def isDigit (c : Char) : Bool := decide (48 ≤ c.toNat) && decide (c.toNat ≤ 57)

/-- `/^[IVX]+$/.test(word)`. -/
def isRomanNumeral (w : JStr) : Bool :=
  !w.isEmpty && w.all (fun c => c == 'I' || c == 'V' || c == 'X')

/-- `/\d+/.test(word) || /milhão|milhões|mil|bilhão|bilhões/.test(word.toLowerCase()) || /^[IVX]+$/.test(word)`. -/
def isNumberWord (w : JStr) : Bool :=
  w.any isDigit ||
  (["milhão", "milhões", "mil", "bilhão", "bilhões"].map (fun s => s.data)).any
    (fun p => containsSub (jsLowerStr w) p) ||
  isRomanNumeral w

def fkVerbs : List JStr :=
  ["vence", "ganha", "perde", "conquista", "anuncia", "revela", "inicia",
   "termina", "aprova", "rejeita", "inaugura", "investe", "cria"].map (fun s => s.data)

def isActionVerb (w : JStr) : Bool :=
  fkVerbs.any (fun v => containsSub (normKey w) v)

def fkNouns : List JStr :=
  ["campeonato", "governo", "prefeitura", "empresa", "projeto", "investimento",
   "hospital", "escola", "universidade", "festival", "feira", "educação",
   "saúde", "estação"].map (fun s => s.data)

def isImportantNoun (w : JStr) : Bool :=
  fkNouns.any (fun n => containsSub (normKey w) (n.map deaccent))

/-- Per-word score in `findKeywords`' scan. -/
def wordScoreOf (w : JStr) : Int :=
  (if isProperNoun w then 4 else 0) + (if isLocation w then 3 else 0) +
  (if isNumberWord w then 3 else 0) + (if isActionVerb w then 2 else 0) +
  (if isImportantNoun w then 3 else 0) + (if isRomanNumeral w then 4 else 0)

/-- The `isCompositeEntity` bonus accumulated over all window positions
(`+5` at each index starting a literal "pedro"/"ii" pair). -/
def entityBonus : List JStr → Int
  | a :: b :: rest =>
    (if jsLowerStr a = ("pedro").data ∧ jsLowerStr b = ("ii").data then 5 else 0) +
    entityBonus (b :: rest)
  | _ => 0

/-- The inner `for (let i ...)` loop over the words of a window: accumulates
word scores and aborts (invalid) on an edge stop word or a short
zero-score non-Roman word. -/
def seqWordLoop (len : Nat) : Nat → List JStr → Bool × Int
  | _, [] => (true, 0)
  | i, w :: rest =>
    if jsLowerStr w ∈ fkStopWords then
      if i = 0 ∨ i = len - 1 then (false, 0)
      else seqWordLoop len (i + 1) rest
    else
      let ws := wordScoreOf w
      if ws = 0 ∧ w.length < 4 ∧ ¬ isRomanNumeral w then (false, 0)
      else
        let r := seqWordLoop len (i + 1) rest
        (r.1, ws + r.2)

/-- Validity and total score of one window (`sequence`), including the
entity, "pedro ii", leading-protagonist, proper-noun+action and
early-start bonuses. -/
def seqScore (start len : Nat) (seq : List JStr) : Bool × Int :=
  let wl := seqWordLoop seq.length 0 seq
  let base := wl.2 + entityBonus seq
  let hasPedro := containsSub (jsLowerStr (joinSpace seq)) (("pedro ii").data)
  let s1 := base + (if hasPedro then 8 else 0)
  let s2 := s1 + (if start = 0 ∧ hasPedro ∧ len ≤ 4 then 5 else 0)
  let s3 := s2 + (if wl.1 ∧ 2 ≤ len ∧
      (seq.any isProperNoun ∧ seq.any (fun w => isActionVerb w || isImportantNoun w))
    then 3 else 0)
  let s4 := s3 + (if wl.1 ∧ start ≤ 1 then 1 else 0)
  (wl.1, s4)

/-- One candidate-window step of the scan: update the best triple
`(bestStart, bestLength, bestScore)` when the window is valid and beats
the best score strictly. -/
def bestUpdate (words : List JStr) (best : Int × Int × Int) (start len : Nat) :
    Int × Int × Int :=
  let seq := (words.drop start).take len
  let vs := seqScore start len seq
  if vs.1 ∧ best.2.2 < vs.2 then ((start : Int), (len : Int), vs.2) else best

/-- The double scan of `findKeywords` over window starts and lengths
(`length` from 2 to `min(maxHighlightWords, words.length - start)`). -/
def scanBest (words : List JStr) : Int × Int × Int :=
  let n := words.length
  let mh := max 2 ((n * 3) / 10)
  (List.range n).foldl (fun best start =>
    (List.range' 2 (min mh (n - start) - 1)).foldl
      (fun b len => bestUpdate words b start len) best)
    (-1, 0, 0)

/-- The fallback scan: first adjacent pair of non-stop words, both longer
than two characters. -/
def fallbackPair (words : List JStr) : Option Nat :=
  (List.range (words.length - 1)).find? (fun i =>
    !(fkStopWords.contains (jsLowerStr (words.getD i []))) &&
    !(fkStopWords.contains (jsLowerStr (words.getD (i + 1) []))) &&
    decide (2 < (words.getD i []).length) &&
    decide (2 < (words.getD (i + 1) []).length))

/-- `findKeywords(text)`, returning `(boldStart, boldLength)`
(`(-1, 0)` when no window qualifies). -/
def findKeywords (text : JStr) : Int × Int :=
  let words := splitSpace text
  let b := scanBest words
  if b.1 = -1 then
    match fallbackPair words with
    | some i => ((i : Int), 2)
    | none => (-1, 0)
  else (b.1, b.2.1)

/-- A fold preserves any invariant its step preserves. -/
theorem listFoldlInv {α β : Type} (P : β → Prop) (f : β → α → β) :
    ∀ (l : List α) (init : β), P init →
      (∀ b a, a ∈ l → P b → P (f b a)) → P (l.foldl f init)
  | [], _, h0, _ => h0
  | a :: l, init, h0, hstep =>
    listFoldlInv P f l (f init a) (hstep init a (by simp) h0)
      (fun b x hx hb => hstep b x (by simp [hx]) hb)

/-- Invariant of the `findKeywords` scan: the best triple is either the
initial sentinel or an in-bounds window of length at least 2. -/
def spanOK (n : Nat) (b : Int × Int × Int) : Prop :=
  b = (-1, 0, 0) ∨
  (0 ≤ b.1 ∧ 0 ≤ b.2.1 ∧ b.1.toNat + b.2.1.toNat ≤ n ∧ 2 ≤ b.2.1)

theorem bestUpdate_inv (words : List JStr) (b : Int × Int × Int)
    (start len : Nat) (hl : 2 ≤ len) (hle : start + len ≤ words.length)
    (hb : spanOK words.length b) :
    spanOK words.length (bestUpdate words b start len) := by
  unfold bestUpdate
  dsimp only
  split
  · right
    refine ⟨Int.natCast_nonneg start, Int.natCast_nonneg len, ?_, ?_⟩
    · simpa [Int.toNat_natCast] using hle
    · show (2 : Int) ≤ (len : Int)
      exact_mod_cast hl
  · exact hb

theorem scanBest_inv (words : List JStr) : spanOK words.length (scanBest words) := by
  unfold scanBest
  dsimp only
  refine listFoldlInv _ _ _ _ (Or.inl rfl) ?_
  intro b start hstart hb
  refine listFoldlInv _ _ _ _ hb ?_
  intro b' len hlen hb'
  have hs : start < words.length := List.mem_range.mp hstart
  have hr := List.mem_range'_1.mp hlen
  refine bestUpdate_inv words b' start len hr.1 ?_ hb'
  omega

/-- Claim C4 (amended): every emphasis span produced by the automatic
`findKeywords` path with a non-negative start is in bounds
(`start + length ≤ word count`) with `length ≥ 1`; when no window
qualifies, `findKeywords` instead returns the sentinel `(-1, 0)`. -/
theorem c4_findKeywords_bounds (text : JStr) :
    (0 ≤ (findKeywords text).1 →
      (findKeywords text).1.toNat + (findKeywords text).2.toNat ≤
        (splitSpace text).length ∧
      1 ≤ (findKeywords text).2) ∧
    ((findKeywords text).1 < 0 → findKeywords text = (-1, 0)) := by
  have hinv := scanBest_inv (splitSpace text)
  have hfk : findKeywords text =
      (if (scanBest (splitSpace text)).1 = -1 then
        match fallbackPair (splitSpace text) with
        | some i => ((i : Int), 2)
        | none => (-1, 0)
      else ((scanBest (splitSpace text)).1, (scanBest (splitSpace text)).2.1)) := rfl
  rw [hfk]
  by_cases h1 : (scanBest (splitSpace text)).1 = -1
  · rw [if_pos h1]
    cases hfb : fallbackPair (splitSpace text) with
    | none =>
      refine ⟨fun h => absurd h (by norm_num), fun _ => rfl⟩
    | some i =>
      have hi : i ∈ List.range ((splitSpace text).length - 1) :=
        List.mem_of_find?_eq_some hfb
      have hilt : i < (splitSpace text).length - 1 := List.mem_range.mp hi
      refine ⟨fun _ => ⟨?_, by norm_num⟩, fun hlt => absurd hlt (by
        simp only [not_lt]
        exact Int.natCast_nonneg i)⟩
      simp only [Int.toNat_natCast, Int.toNat_ofNat]
      omega
  · rw [if_neg h1]
    rcases hinv with heq | hok
    · exact absurd (by rw [heq]) h1
    · obtain ⟨h0, hl0, hsum, h2⟩ := hok
      refine ⟨fun _ => ⟨hsum, by omega⟩, fun hneg => absurd hneg (by omega)⟩

/-- Witness for C4: on "Bom dia" the fallback produces a valid span. -/
theorem c4_findKeywords_bounds_witness :
    (findKeywords (("Bom dia").data)).1.toNat +
      (findKeywords (("Bom dia").data)).2.toNat ≤
      (splitSpace (("Bom dia").data)).length ∧
    1 ≤ (findKeywords (("Bom dia").data)).2 :=
  (c4_findKeywords_bounds (("Bom dia").data)).1 (by decide)

/-- Counterexample to C4 as stated: on the non-empty single-word headline
"Hoje", `findKeywords` returns `(-1, 0)`, violating both `0 ≤ start` and
`length ≥ 1`. -/
theorem c4_counterexample :
    ("Hoje").data ≠ ([] : JStr) ∧
    ¬ (0 ≤ (findKeywords (("Hoje").data)).1 ∧
       1 ≤ (findKeywords (("Hoje").data)).2) := by decide

/-- Claim C7: on the word list "Pedro II inaugura nova ponte na capital",
automatic emphasis selection picks exactly the window "Pedro II":
`boldStart = 0`, `boldLength = 2`. -/
theorem c7_pedro_ii_window :
    findKeywords (("Pedro II inaugura nova ponte na capital").data) = (0, 2) := by
  decide

/-! ## Line wrapper (`wrapWordsToWidth`, identical in both server variants) -/

/-- A styled word `{ text, isBold }`. -/
structure SWord where
  text : JStr
  isBold : Bool
deriving DecidableEq

/-!
Widths are measured in hundredths of a pixel, so that every width constant
of the source (`0.58`, `0.62`, `0.32 * 76 = 24.32`) is an exact integer and
all width arithmetic — exact in the rationals, agreeing with the source's
double arithmetic at these magnitudes — stays kernel-computable.  The
source's `maxWidth` budget of `960` pixels is `96000` in these units. -/

def FONT_SIZE : Int := 76
def CHAR_WIDTH_NORMAL : Int := 58
def CHAR_WIDTH_BOLD : Int := 62
def SPACE_WIDTH : Int := 2432

/-- `estimateWordWidth(word, isBold)`, in hundredths of a pixel. -/
def estimateWordWidth (w : JStr) (isBold : Bool) : Int :=
  (w.length : Int) * FONT_SIZE * (if isBold then CHAR_WIDTH_BOLD else CHAR_WIDTH_NORMAL)

def ewW (s : SWord) : Int := estimateWordWidth s.text s.isBold

/-- The inner `lineWidth` helper: word widths plus a space before every
word but the first. -/
def lineWidth : List SWord → Int
  | [] => 0
  | a :: rest => ewW a + (rest.map (fun s => SPACE_WIDTH + ewW s)).sum

/-- Styling of `wordsArr` by index against the `[boldStart, boldStart+boldLength)`
emphasis window. -/
def styleWordsGo (boldStart boldLength : Int) : Nat → List JStr → List SWord
  | _, [] => []
  | i, w :: rest =>
    ⟨w, decide (boldStart ≤ (i : Int) ∧ (i : Int) < boldStart + boldLength)⟩ ::
    styleWordsGo boldStart boldLength (i + 1) rest

def styleWords (wordsArr : List JStr) (boldStart boldLength : Int) : List SWord :=
  styleWordsGo boldStart boldLength 0 wordsArr

/-- The greedy packing loop of `wrapWordsToWidth` (first stage):
accumulate the current line and its running width, push a full line and
break once `maxLines` lines are built. -/
def packGo (mw : Int) (ml : Nat) :
    List SWord → List SWord → Int → List (List SWord) → List (List SWord)
  | [], line, _, built =>
    if line ≠ [] ∧ built.length < ml then built ++ [line] else built
  | s :: rest, line, width, built =>
    let extraSpace : Int := if line = [] then 0 else SPACE_WIDTH
    if width + extraSpace + ewW s ≤ mw ∨ line = [] then
      packGo mw ml rest (line ++ [s]) (width + extraSpace + ewW s) built
    else
      if ml ≤ built.length + 1 then built ++ [line]
      else packGo mw ml rest [s] (ewW s) (built ++ [line])

/-- The borrow-from-next half of the widow repair (also used when there is
no previous line or it has at most 2 words); `next?` is the following line
when one exists. -/
def widowFromNext (mw : Int) (prev? : Option (List SWord)) (cur : List SWord)
    (next? : Option (List SWord)) :
    Option (List SWord) × List SWord × Option (List SWord) :=
  match next? with
  | some next =>
    if 1 < next.length then
      match next.head? with
      | some movedN =>
        if lineWidth cur + (if cur.length ≠ 0 then SPACE_WIDTH else 0) + ewW movedN ≤ mw
        then (prev?, cur ++ [movedN], some next.tail)
        else (prev?, cur, some next)
      | none => (prev?, cur, some next)
    else (prev?, cur, some next)
  | none => (prev?, cur, none)

/-- One iteration of the widow-repair loop at the current line. -/
def widowStep (mw : Int) (prev? : Option (List SWord)) (cur : List SWord)
    (next? : Option (List SWord)) :
    Option (List SWord) × List SWord × Option (List SWord) :=
  if cur.length = 1 then
    match prev? with
    | some prev =>
      if 2 < prev.length then
        match prev.getLast? with
        | some moved =>
          if lineWidth cur + SPACE_WIDTH + ewW moved ≤ mw then
            (some prev.dropLast, moved :: cur, next?)
          else (some prev, cur, next?)
        | none => (some prev, cur, next?)
      else widowFromNext mw (some prev) cur next?
    | none => widowFromNext mw none cur next?
  else (prev?, cur, next?)

/-- The widow-repair pass, carrying the already-processed previous line
and the current line; the list argument is the remaining lines. -/
def widowGo (mw : Int) (prev? : Option (List SWord)) (cur : List SWord) :
    List (List SWord) → List (List SWord)
  | [] =>
    let r := widowStep mw prev? cur none
    (match r.1 with | some p => [p] | none => []) ++ [r.2.1]
  | next :: rest =>
    let r := widowStep mw prev? cur (some next)
    (match r.1 with | some p => [p] | none => []) ++
      widowGo mw (some r.2.1) (match r.2.2 with | some n => n | none => next) rest

/-- The widow-repair pass over the whole line list. -/
def widowPass (mw : Int) : List (List SWord) → List (List SWord)
  | [] => []
  | cur :: rest => widowGo mw none cur rest

/-- The `while` loop of the width clamp on one line, with explicit fuel
(each iteration pops one word, so `cur.length` steps suffice): pop the
last word while the line overflows and has more than one word, pushing the
popped word onto the next line when it fits there. -/
def clampLineF (mw : Int) : Nat → List SWord → Option (List SWord) →
    List SWord × Option (List SWord)
  | 0, cur, next? => (cur, next?)
  | fuel + 1, cur, next? =>
    if mw < lineWidth cur ∧ 1 < cur.length then
      match cur.getLast? with
      | some spill =>
        clampLineF mw fuel cur.dropLast
          (match next? with
           | some nx =>
             if lineWidth nx + (if nx.length ≠ 0 then SPACE_WIDTH else 0) + ewW spill ≤ mw
             then some (spill :: nx) else some nx
           | none => none)
      | none => (cur, next?)
    else (cur, next?)

def clampLine (mw : Int) (cur : List SWord) (next? : Option (List SWord)) :
    List SWord × Option (List SWord) :=
  clampLineF mw cur.length cur next?

/-- The clamp pass over the remaining lines, carrying the current line. -/
def clampGo (mw : Int) (cur : List SWord) : List (List SWord) → List (List SWord)
  | [] => [(clampLine mw cur none).1]
  | next :: rest =>
    let r := clampLine mw cur (some next)
    r.1 :: clampGo mw (match r.2 with | some n => n | none => next) rest

/-- The clamp pass over the whole line list. -/
def clampPass (mw : Int) : List (List SWord) → List (List SWord)
  | [] => []
  | cur :: rest => clampGo mw cur rest

/-- `wrapWordsToWidth(wordsArr, boldStart, boldLength, maxWidth, maxLines)`. -/
def wrapWordsToWidth (wordsArr : List JStr) (boldStart boldLength : Int)
    (maxWidth : Int) (maxLines : Nat) : List (List SWord) :=
  let styled := styleWords wordsArr boldStart boldLength
  let built := packGo maxWidth maxLines styled [] 0 []
  let repaired := widowPass maxWidth built
  let clamped := clampPass maxWidth repaired
  clamped.take maxLines

/-! ### Width arithmetic facts -/

theorem ewW_nonneg (s : SWord) : 0 ≤ ewW s := by
  unfold ewW estimateWordWidth FONT_SIZE CHAR_WIDTH_BOLD CHAR_WIDTH_NORMAL
  have h0 : (0 : Int) ≤ (s.text.length : Int) := Int.natCast_nonneg _
  cases s.isBold <;> simp

theorem SPACE_WIDTH_nonneg : (0 : Int) ≤ SPACE_WIDTH := by norm_num [SPACE_WIDTH]

theorem lineWidth_nonneg (l : List SWord) : 0 ≤ lineWidth l := by
  cases l with
  | nil => simp [lineWidth]
  | cons a rest =>
    show 0 ≤ ewW a + (rest.map (fun s => SPACE_WIDTH + ewW s)).sum
    have h1 : 0 ≤ (rest.map (fun s => SPACE_WIDTH + ewW s)).sum := by
      apply List.sum_nonneg
      intro x hx
      obtain ⟨s, _, rfl⟩ := List.mem_map.mp hx
      have := ewW_nonneg s
      have := SPACE_WIDTH_nonneg
      omega
    have := ewW_nonneg a
    omega

theorem lineWidth_singleton (s : SWord) : lineWidth [s] = ewW s := by
  simp [lineWidth]

theorem lineWidth_cons_ne (a : SWord) (rest : List SWord) (h : rest ≠ []) :
    lineWidth (a :: rest) = ewW a + SPACE_WIDTH + lineWidth rest := by
  cases rest with
  | nil => exact absurd rfl h
  | cons b r => simp [lineWidth]; ring

theorem lineWidth_append_one (l : List SWord) (s : SWord) (h : l ≠ []) :
    lineWidth (l ++ [s]) = lineWidth l + SPACE_WIDTH + ewW s := by
  induction l with
  | nil => exact absurd rfl h
  | cons a rest ih =>
    cases rest with
    | nil => simp [lineWidth]; ring
    | cons b r =>
      have hne : (b :: r) ≠ [] := by simp
      have hne2 : (b :: r) ++ [s] ≠ [] := by simp
      rw [List.cons_append, lineWidth_cons_ne a _ hne2, ih hne,
          lineWidth_cons_ne a _ hne]
      ring

theorem lineWidth_tail_le (l : List SWord) : lineWidth l.tail ≤ lineWidth l := by
  cases l with
  | nil => simp
  | cons a rest =>
    cases rest with
    | nil => simp [lineWidth]; exact ewW_nonneg a
    | cons b r =>
      rw [List.tail_cons, lineWidth_cons_ne a (b :: r) (by simp)]
      have := ewW_nonneg a
      have := SPACE_WIDTH_nonneg
      omega

theorem lineWidth_dropLast_le (l : List SWord) : lineWidth l.dropLast ≤ lineWidth l := by
  cases hl : l.getLast? with
  | none =>
    rw [List.getLast?_eq_none_iff] at hl
    subst hl; simp
  | some x =>
    have hne : l ≠ [] := by
      intro h; subst h; simp at hl
    have hx : l.getLast hne = x := by
      have h2 := List.getLast?_eq_getLast l hne
      rw [h2] at hl
      exact Option.some_inj.mp hl
    have hsplit : l.dropLast ++ [x] = l := by
      rw [← hx]
      exact List.dropLast_append_getLast hne
    by_cases hd : l.dropLast = []
    · rw [hd]
      simpa using lineWidth_nonneg l
    · calc lineWidth l.dropLast
          ≤ lineWidth l.dropLast + SPACE_WIDTH + ewW x := by
            have := ewW_nonneg x
            have := SPACE_WIDTH_nonneg
            omega
        _ = lineWidth (l.dropLast ++ [x]) := (lineWidth_append_one _ x hd).symm
        _ = lineWidth l := by rw [hsplit]

/-! ### Greedy packing facts -/

/-- A line either fits the budget or is a single (possibly over-wide) word. -/
def fitsOrSingle (mw : Int) (l : List SWord) : Prop :=
  lineWidth l ≤ mw ∨ l.length = 1

theorem packGo_nil (mw : Int) (ml : Nat) (line : List SWord) (width : Int)
    (built : List (List SWord)) :
    packGo mw ml [] line width built =
      if line ≠ [] ∧ built.length < ml then built ++ [line] else built := rfl

theorem packGo_cons (mw : Int) (ml : Nat) (s : SWord) (rest line : List SWord)
    (width : Int) (built : List (List SWord)) :
    packGo mw ml (s :: rest) line width built =
      if width + (if line = [] then 0 else SPACE_WIDTH) + ewW s ≤ mw ∨ line = [] then
        packGo mw ml rest (line ++ [s])
          (width + (if line = [] then 0 else SPACE_WIDTH) + ewW s) built
      else if ml ≤ built.length + 1 then built ++ [line]
      else packGo mw ml rest [s] (ewW s) (built ++ [line]) := rfl

theorem packGo_flatten_split (mw : Int) (ml : Nat) :
    ∀ (rest line : List SWord) (width : Int) (built : List (List SWord)),
      ∃ t u, rest = t ++ u ∧
        ((packGo mw ml rest line width built).flatten = built.flatten ++ line ++ t ∨
         (packGo mw ml rest line width built).flatten = built.flatten) := by
  intro rest
  induction rest with
  | nil =>
    intro line width built
    refine ⟨[], [], rfl, ?_⟩
    rw [packGo_nil]
    split
    · left; simp
    · right; rfl
  | cons s rest ih =>
    intro line width built
    rw [packGo_cons]
    by_cases hline : line = []
    · subst hline
      rw [if_pos (Or.inr rfl)]
      obtain ⟨t', u', hsplit, hcase⟩ :=
        ih ([] ++ [s]) (width + (if ([] : List SWord) = [] then 0 else SPACE_WIDTH) + ewW s) built
      rcases hcase with h | h
      · exact ⟨s :: t', u', by simp [hsplit], Or.inl (by simpa using h)⟩
      · exact ⟨[], s :: rest, rfl, Or.inr h⟩
    · rw [if_neg hline]
      by_cases hfit : width + SPACE_WIDTH + ewW s ≤ mw
      · rw [if_pos (Or.inl hfit)]
        obtain ⟨t', u', hsplit, hcase⟩ := ih (line ++ [s]) (width + SPACE_WIDTH + ewW s) built
        rcases hcase with h | h
        · exact ⟨s :: t', u', by simp [hsplit], Or.inl (by simpa using h)⟩
        · exact ⟨[], s :: rest, rfl, Or.inr h⟩
      · rw [if_neg (by tauto)]
        by_cases hbk : ml ≤ built.length + 1
        · rw [if_pos hbk]
          exact ⟨[], s :: rest, rfl, Or.inl (by simp)⟩
        · rw [if_neg hbk]
          obtain ⟨t', u', hsplit, hcase⟩ := ih [s] (ewW s) (built ++ [line])
          rcases hcase with h | h
          · exact ⟨s :: t', u', by simp [hsplit], Or.inl (by simpa using h)⟩
          · exact ⟨[], s :: rest, rfl, Or.inl (by simpa using h)⟩

theorem packGo_cases (mw : Int) (ml : Nat) :
    ∀ (rest line : List SWord) (width : Int) (built : List (List SWord)),
      (packGo mw ml rest line width built).flatten = built.flatten ++ line ++ rest ∨
      ml ≤ (packGo mw ml rest line width built).length := by
  intro rest
  induction rest with
  | nil =>
    intro line width built
    rw [packGo_nil]
    split
    · left; simp
    · rename_i hcond
      rcases Decidable.em (line = []) with hline | hline
      · left; simp [hline]
      · right
        push_neg at hcond
        have h2 := hcond hline
        simpa using h2
  | cons s rest ih =>
    intro line width built
    rw [packGo_cons]
    by_cases hline : line = []
    · subst hline
      rw [if_pos (Or.inr rfl)]
      rcases ih ([] ++ [s])
          (width + (if ([] : List SWord) = [] then 0 else SPACE_WIDTH) + ewW s) built
        with h | h
      · left; simpa using h
      · right; exact h
    · rw [if_neg hline]
      by_cases hfit : width + SPACE_WIDTH + ewW s ≤ mw
      · rw [if_pos (Or.inl hfit)]
        rcases ih (line ++ [s]) (width + SPACE_WIDTH + ewW s) built with h | h
        · left; simpa using h
        · right; exact h
      · rw [if_neg (by tauto)]
        by_cases hbk : ml ≤ built.length + 1
        · rw [if_pos hbk]
          right
          simpa using hbk
        · rw [if_neg hbk]
          rcases ih [s] (ewW s) (built ++ [line]) with h | h
          · left; simpa using h
          · right; exact h

theorem packGo_fits (mw : Int) (ml : Nat) :
    ∀ (rest line : List SWord) (width : Int) (built : List (List SWord)),
      (∀ l ∈ built, fitsOrSingle mw l) →
      width = lineWidth line →
      (line = [] ∨ fitsOrSingle mw line) →
      ∀ l ∈ packGo mw ml rest line width built, fitsOrSingle mw l := by
  intro rest
  induction rest with
  | nil =>
    intro line width built hb _ hl
    rw [packGo_nil]
    split
    · rename_i hcond
      intro l hmem
      rcases List.mem_append.mp hmem with h | h
      · exact hb l h
      · rcases hl with hle | hfs
        · exact absurd hle hcond.1
        · simpa using (List.mem_singleton.mp h) ▸ hfs
    · exact hb
  | cons s rest ih =>
    intro line width built hb hw hl
    rw [packGo_cons]
    by_cases hline : line = []
    · subst hline
      rw [if_pos (Or.inr rfl)]
      refine ih ([] ++ [s]) _ built hb ?_ ?_
      · have h0 : width = 0 := by simpa [lineWidth] using hw
        simp [h0, lineWidth_singleton]
      · right; right; rfl
    · rw [if_neg hline]
      by_cases hfit : width + SPACE_WIDTH + ewW s ≤ mw
      · rw [if_pos (Or.inl hfit)]
        refine ih (line ++ [s]) _ built hb ?_ ?_
        · rw [lineWidth_append_one line s hline, hw]
        · right; left
          rw [lineWidth_append_one line s hline, ← hw]
          exact hfit
      · rw [if_neg (by tauto)]
        have hbl : ∀ l ∈ built ++ [line], fitsOrSingle mw l := by
          intro l hmem
          rcases List.mem_append.mp hmem with h | h
          · exact hb l h
          · rcases hl with hle | hfs
            · exact absurd hle hline
            · simpa using (List.mem_singleton.mp h) ▸ hfs
        by_cases hbk : ml ≤ built.length + 1
        · rw [if_pos hbk]
          exact hbl
        · rw [if_neg hbk]
          refine ih [s] (ewW s) (built ++ [line]) hbl ?_ ?_
          · rw [lineWidth_singleton]
          · right; right; rfl

/-! ### Widow repair facts -/

def optFlat : Option (List SWord) → List SWord
  | some p => p
  | none => []

def emitP : Option (List SWord) → List (List SWord)
  | some p => [p]
  | none => []

theorem dropLast_append_of_getLast? {α : Type} {l : List α} {x : α}
    (h : l.getLast? = some x) : l.dropLast ++ [x] = l := by
  have hne : l ≠ [] := by rintro rfl; simp at h
  have hx : l.getLast hne = x := by
    rw [List.getLast?_eq_getLast l hne] at h
    exact Option.some_inj.mp h
  rw [← hx]
  exact List.dropLast_append_getLast hne

theorem widowFromNext_flatten (mw : Int) (p? : Option (List SWord))
    (cur : List SWord) (n? : Option (List SWord)) :
    optFlat (widowFromNext mw p? cur n?).1 ++ (widowFromNext mw p? cur n?).2.1 ++
      optFlat (widowFromNext mw p? cur n?).2.2 = optFlat p? ++ cur ++ optFlat n? := by
  rcases n? with _ | next
  · rfl
  · rcases next with _ | ⟨h0, t⟩
    · simp [widowFromNext, optFlat]
    · simp only [widowFromNext, List.head?_cons, List.tail_cons]
      split_ifs <;> simp [optFlat]

theorem widowFromNext_next_isSome (mw : Int) (p? : Option (List SWord))
    (cur : List SWord) (n? : Option (List SWord)) :
    (widowFromNext mw p? cur n?).2.2.isSome = n?.isSome := by
  rcases n? with _ | next
  · rfl
  · rcases next with _ | ⟨h0, t⟩
    · simp [widowFromNext]
    · simp only [widowFromNext, List.head?_cons, List.tail_cons]
      split_ifs <;> simp

theorem widowFromNext_prev (mw : Int) (p? : Option (List SWord))
    (cur : List SWord) (n? : Option (List SWord)) :
    (widowFromNext mw p? cur n?).1 = p? := by
  rcases n? with _ | next
  · rfl
  · rcases next with _ | ⟨h0, t⟩
    · simp [widowFromNext]
    · simp only [widowFromNext, List.head?_cons, List.tail_cons]
      split_ifs <;> simp

theorem widowStep_flatten (mw : Int) (p? : Option (List SWord))
    (cur : List SWord) (n? : Option (List SWord)) :
    optFlat (widowStep mw p? cur n?).1 ++ (widowStep mw p? cur n?).2.1 ++
      optFlat (widowStep mw p? cur n?).2.2 = optFlat p? ++ cur ++ optFlat n? := by
  by_cases h1 : cur.length = 1
  · rcases p? with _ | prev
    · simpa [widowStep, h1] using widowFromNext_flatten mw none cur n?
    · by_cases h2 : 2 < prev.length
      · rcases hgl : prev.getLast? with _ | moved
        · have : prev = [] := List.getLast?_eq_none_iff.mp hgl
          subst this
          simp at h2
        · have hp := dropLast_append_of_getLast? hgl
          simp only [widowStep, h1, if_pos h2, hgl, if_true]
          split_ifs
          · show prev.dropLast ++ (moved :: cur) ++ optFlat n? = prev ++ cur ++ optFlat n?
            conv_rhs => rw [← hp]
            simp
          · rfl
      · simpa [widowStep, h1, h2] using widowFromNext_flatten mw (some prev) cur n?
  · simp [widowStep, h1]

theorem widowStep_next_isSome (mw : Int) (p? : Option (List SWord))
    (cur : List SWord) (n? : Option (List SWord)) :
    (widowStep mw p? cur n?).2.2.isSome = n?.isSome := by
  by_cases h1 : cur.length = 1
  · rcases p? with _ | prev
    · simpa [widowStep, h1] using widowFromNext_next_isSome mw none cur n?
    · by_cases h2 : 2 < prev.length
      · rcases hgl : prev.getLast? with _ | moved
        · have : prev = [] := List.getLast?_eq_none_iff.mp hgl
          subst this
          simp at h2
        · simp only [widowStep, h1, if_pos h2, hgl, if_true]
          split_ifs <;> rfl
      · simpa [widowStep, h1, h2] using widowFromNext_next_isSome mw (some prev) cur n?
  · simp [widowStep, h1]

theorem widowStep_prev_isSome (mw : Int) (p? : Option (List SWord))
    (cur : List SWord) (n? : Option (List SWord)) :
    (widowStep mw p? cur n?).1.isSome = p?.isSome := by
  by_cases h1 : cur.length = 1
  · rcases p? with _ | prev
    · simp [widowStep, h1, widowFromNext_prev]
    · by_cases h2 : 2 < prev.length
      · rcases hgl : prev.getLast? with _ | moved
        · have : prev = [] := List.getLast?_eq_none_iff.mp hgl
          subst this
          simp at h2
        · simp only [widowStep, h1, if_pos h2, hgl, if_true]
          split_ifs <;> rfl
      · simp [widowStep, h1, h2, widowFromNext_prev]
  · simp [widowStep, h1]

theorem widowFromNext_FS (mw : Int) (p? : Option (List SWord))
    (cur : List SWord) (n? : Option (List SWord))
    (hcne : cur ≠ [])
    (hp : ∀ p, p? = some p → fitsOrSingle mw p)
    (hc : fitsOrSingle mw cur)
    (hn : ∀ nx, n? = some nx → fitsOrSingle mw nx) :
    (∀ p, (widowFromNext mw p? cur n?).1 = some p → fitsOrSingle mw p) ∧
    fitsOrSingle mw (widowFromNext mw p? cur n?).2.1 ∧
    (∀ nx, (widowFromNext mw p? cur n?).2.2 = some nx → fitsOrSingle mw nx) := by
  rcases n? with _ | next
  · exact ⟨hp, hc, by intro nx h; cases h⟩
  · rcases next with _ | ⟨h0, t⟩
    · have heq : widowFromNext mw p? cur (some []) = (p?, cur, some []) := by
        simp [widowFromNext]
      rw [heq]
      exact ⟨hp, hc, hn⟩
    · have hne0 : cur.length ≠ 0 := by
        simpa [List.length_eq_zero] using hcne
      simp only [widowFromNext, List.head?_cons, List.tail_cons, if_pos hne0]
      split_ifs with hlen hfit
      · refine ⟨hp, ?_, ?_⟩
        · left
          rw [lineWidth_append_one cur h0 hcne]
          exact hfit
        · intro nx h
          rw [Option.some_inj] at h
          subst h
          have hfs := hn (h0 :: t) rfl
          left
          have htail : lineWidth t ≤ lineWidth (h0 :: t) :=
            lineWidth_tail_le (h0 :: t)
          rcases hfs with hle | hsing
          · exact le_trans htail hle
          · exfalso
            rw [List.length_cons] at hsing hlen
            omega
      · exact ⟨hp, hc, hn⟩
      · exact ⟨hp, hc, hn⟩

theorem widowStep_FS (mw : Int) (p? : Option (List SWord))
    (cur : List SWord) (n? : Option (List SWord))
    (hp : ∀ p, p? = some p → fitsOrSingle mw p)
    (hc : fitsOrSingle mw cur)
    (hn : ∀ nx, n? = some nx → fitsOrSingle mw nx) :
    (∀ p, (widowStep mw p? cur n?).1 = some p → fitsOrSingle mw p) ∧
    fitsOrSingle mw (widowStep mw p? cur n?).2.1 ∧
    (∀ nx, (widowStep mw p? cur n?).2.2 = some nx → fitsOrSingle mw nx) := by
  by_cases h1 : cur.length = 1
  · have hcne : cur ≠ [] := by
      intro h; subst h; simp at h1
    rcases p? with _ | prev
    · have heq : widowStep mw none cur n? = widowFromNext mw none cur n? := by
        simp [widowStep, h1]
      rw [heq]
      exact widowFromNext_FS mw none cur n? hcne hp hc hn
    · by_cases h2 : 2 < prev.length
      · rcases hgl : prev.getLast? with _ | moved
        · have : prev = [] := List.getLast?_eq_none_iff.mp hgl
          subst this
          simp at h2
        · have hprevFS := hp prev rfl
          have hprevFit : lineWidth prev ≤ mw := by
            rcases hprevFS with hle | hsing
            · exact hle
            · omega
          simp only [widowStep, h1, if_pos h2, hgl, if_true]
          split_ifs with hfit
          · refine ⟨?_, ?_, hn⟩
            · intro p h
              rw [Option.some_inj] at h
              subst h
              left
              calc lineWidth prev.dropLast
                  ≤ lineWidth prev := lineWidth_dropLast_le prev
                _ ≤ mw := hprevFit
            · left
              rw [lineWidth_cons_ne moved cur hcne]
              omega
          · refine ⟨?_, hc, hn⟩
            intro p h
            rw [Option.some_inj] at h
            subst h
            exact hprevFS
      · have heq : widowStep mw (some prev) cur n? =
            widowFromNext mw (some prev) cur n? := by
          simp [widowStep, h1, h2]
        rw [heq]
        exact widowFromNext_FS mw (some prev) cur n? hcne hp hc hn
  · have heq : widowStep mw p? cur n? = (p?, cur, n?) := by
      simp [widowStep, h1]
    rw [heq]
    exact ⟨hp, hc, hn⟩

theorem widowGo_flatten (mw : Int) :
    ∀ (l : List (List SWord)) (p? : Option (List SWord)) (cur : List SWord),
      (widowGo mw p? cur l).flatten = optFlat p? ++ cur ++ l.flatten := by
  intro l
  induction l with
  | nil =>
    intro p? cur
    have hnone : (widowStep mw p? cur none).2.2 = none := by
      have h := widowStep_next_isSome mw p? cur none
      rcases hh : (widowStep mw p? cur none).2.2 with _ | x
      · rfl
      · rw [hh] at h; simp at h
    have hfl := widowStep_flatten mw p? cur none
    rw [hnone] at hfl
    simp only [widowGo]
    rcases hr : (widowStep mw p? cur none).1 with _ | p <;>
      rw [hr] at hfl <;> simpa [optFlat] using hfl
  | cons next rest ih =>
    intro p? cur
    obtain ⟨n', hn'⟩ : ∃ n', (widowStep mw p? cur (some next)).2.2 = some n' := by
      have h := widowStep_next_isSome mw p? cur (some next)
      rcases hh : (widowStep mw p? cur (some next)).2.2 with _ | x
      · rw [hh] at h; simp at h
      · exact ⟨x, rfl⟩
    have hfl := widowStep_flatten mw p? cur (some next)
    rw [hn'] at hfl
    simp only [widowGo, hn']
    rcases hr : (widowStep mw p? cur (some next)).1 with _ | p <;>
      rw [hr] at hfl <;>
      simp only [optFlat] at hfl <;>
      have h2 := congrArg (fun x => x ++ rest.flatten) hfl <;>
      simp only [List.flatten_append, List.flatten_cons, List.nil_append, ih] <;>
      simpa [optFlat, List.append_assoc] using h2

theorem widowGo_length (mw : Int) :
    ∀ (l : List (List SWord)) (p? : Option (List SWord)) (cur : List SWord),
      (widowGo mw p? cur l).length = (emitP p?).length + 1 + l.length := by
  intro l
  induction l with
  | nil =>
    intro p? cur
    have hps := widowStep_prev_isSome mw p? cur none
    simp only [widowGo]
    rcases hr : (widowStep mw p? cur none).1 with _ | p <;>
      rw [hr] at hps <;>
      rcases p? with _ | q <;> simp_all [emitP]
  | cons next rest ih =>
    intro p? cur
    have hps := widowStep_prev_isSome mw p? cur (some next)
    obtain ⟨n', hn'⟩ : ∃ n', (widowStep mw p? cur (some next)).2.2 = some n' := by
      have h := widowStep_next_isSome mw p? cur (some next)
      rcases hh : (widowStep mw p? cur (some next)).2.2 with _ | x
      · rw [hh] at h; simp at h
      · exact ⟨x, rfl⟩
    simp only [widowGo, hn']
    rcases hr : (widowStep mw p? cur (some next)).1 with _ | p <;>
      rw [hr] at hps <;>
      rcases p? with _ | q <;>
      simp_all [emitP, ih, List.length_cons] <;> omega

theorem widowGo_FS (mw : Int) :
    ∀ (l : List (List SWord)) (p? : Option (List SWord)) (cur : List SWord),
      (∀ p, p? = some p → fitsOrSingle mw p) →
      fitsOrSingle mw cur →
      (∀ x ∈ l, fitsOrSingle mw x) →
      ∀ y ∈ widowGo mw p? cur l, fitsOrSingle mw y := by
  intro l
  induction l with
  | nil =>
    intro p? cur hp hc _
    obtain ⟨hp', hc', _⟩ := widowStep_FS mw p? cur none hp hc (by intro nx h; cases h)
    simp only [widowGo]
    intro y hy
    cases hr : (widowStep mw p? cur none).1 with
    | none =>
      rw [hr] at hy
      simp at hy
      subst hy
      exact hc'
    | some p =>
      rw [hr] at hy
      simp at hy
      rcases hy with hy | hy
      · subst hy
        exact hp' _ hr
      · subst hy
        exact hc'
  | cons next rest ih =>
    intro p? cur hp hc hrest
    obtain ⟨hp', hc', hn'⟩ := widowStep_FS mw p? cur (some next) hp hc
      (by intro nx h; rw [Option.some_inj] at h; subst h; exact hrest next (by simp))
    obtain ⟨n', hns⟩ : ∃ n', (widowStep mw p? cur (some next)).2.2 = some n' := by
      have h := widowStep_next_isSome mw p? cur (some next)
      rcases hh : (widowStep mw p? cur (some next)).2.2 with _ | x
      · rw [hh] at h; simp at h
      · exact ⟨x, rfl⟩
    have htail : ∀ y ∈ widowGo mw (some (widowStep mw p? cur (some next)).2.1) n' rest,
        fitsOrSingle mw y := by
      refine ih (some (widowStep mw p? cur (some next)).2.1) n' ?_ ?_ ?_
      · intro p h
        rw [Option.some_inj] at h
        subst h
        exact hc'
      · exact hn' n' hns
      · intro x hx
        exact hrest x (by simp [hx])
    simp only [widowGo, hns]
    intro y hy
    cases hr : (widowStep mw p? cur (some next)).1 with
    | none =>
      rw [hr] at hy
      simp only [List.nil_append] at hy
      exact htail y hy
    | some p =>
      rw [hr] at hy
      simp only [List.singleton_append, List.mem_cons] at hy
      rcases hy with hy | hy
      · subst hy
        exact hp' _ hr
      · exact htail y hy

/-! ### Clamp pass facts -/

theorem clampLineF_id (mw : Int) (fuel : Nat) (cur : List SWord)
    (next? : Option (List SWord)) (h : fitsOrSingle mw cur) :
    clampLineF mw fuel cur next? = (cur, next?) := by
  cases fuel with
  | zero => rfl
  | succ n =>
    have hcond : ¬ (mw < lineWidth cur ∧ 1 < cur.length) := by
      rcases h with hle | hs
      · rintro ⟨h1, _⟩; omega
      · rintro ⟨_, h2⟩; omega
    simp [clampLineF, hcond]

theorem clampGo_id (mw : Int) :
    ∀ (rest : List (List SWord)) (cur : List SWord),
      fitsOrSingle mw cur → (∀ x ∈ rest, fitsOrSingle mw x) →
      clampGo mw cur rest = cur :: rest := by
  intro rest
  induction rest with
  | nil =>
    intro cur hc _
    show [(clampLine mw cur none).1] = [cur]
    rw [clampLine, clampLineF_id mw _ cur none hc]
  | cons next rest' ih =>
    intro cur hc hr
    have hnext : fitsOrSingle mw next := hr next (by simp)
    have hcl : clampLine mw cur (some next) = (cur, some next) := by
      rw [clampLine]
      exact clampLineF_id mw _ cur (some next) hc
    show (clampLine mw cur (some next)).1 ::
        clampGo mw (match (clampLine mw cur (some next)).2 with
          | some n => n | none => next) rest' = cur :: next :: rest'
    rw [hcl]
    show cur :: clampGo mw next rest' = cur :: next :: rest'
    rw [ih next hnext (fun x hx => hr x (by simp [hx]))]

theorem clampPass_id (mw : Int) (l : List (List SWord))
    (h : ∀ x ∈ l, fitsOrSingle mw x) : clampPass mw l = l := by
  cases l with
  | nil => rfl
  | cons cur rest =>
    show clampGo mw cur rest = cur :: rest
    exact clampGo_id mw rest cur (h cur (by simp)) (fun x hx => h x (by simp [hx]))

/-! ### Pass-level facts -/

theorem widowPass_flatten (mw : Int) (l : List (List SWord)) :
    (widowPass mw l).flatten = l.flatten := by
  cases l with
  | nil => rfl
  | cons cur rest =>
    show (widowGo mw none cur rest).flatten = _
    rw [widowGo_flatten mw rest none cur]
    simp [optFlat]

theorem widowPass_length (mw : Int) (l : List (List SWord)) :
    (widowPass mw l).length = l.length := by
  cases l with
  | nil => rfl
  | cons cur rest =>
    show (widowGo mw none cur rest).length = _
    rw [widowGo_length mw rest none cur]
    simp [emitP]
    omega

theorem widowPass_FS (mw : Int) (l : List (List SWord))
    (h : ∀ x ∈ l, fitsOrSingle mw x) :
    ∀ y ∈ widowPass mw l, fitsOrSingle mw y := by
  cases l with
  | nil => intro y hy; cases hy
  | cons cur rest =>
    exact widowGo_FS mw rest none cur (by intro p hp; cases hp)
      (h cur (by simp)) (fun x hx => h x (by simp [hx]))

theorem styleWordsGo_texts (bs bl : Int) :
    ∀ (i : Nat) (l : List JStr),
      (styleWordsGo bs bl i l).map SWord.text = l
  | _, [] => rfl
  | i, w :: rest => by
    show w :: (styleWordsGo bs bl (i + 1) rest).map SWord.text = w :: rest
    rw [styleWordsGo_texts bs bl (i + 1) rest]

theorem styleWords_texts (wordsArr : List JStr) (bs bl : Int) :
    (styleWords wordsArr bs bl).map SWord.text = wordsArr :=
  styleWordsGo_texts bs bl 0 wordsArr

/-- Claim C1: `wrapWordsToWidth` emits at most `maxLines` lines; the
concatenation of its lines' words, in order, is a subsequence (in fact a
prefix) of the input word list; and words are omitted only when the
`maxLines` cap is reached — otherwise every input word appears. -/
theorem c1_wrap_subsequence (wordsArr : List JStr) (boldStart boldLength : Int)
    (maxWidth : Int) (maxLines : Nat) :
    (wrapWordsToWidth wordsArr boldStart boldLength maxWidth maxLines).length ≤ maxLines ∧
    ((wrapWordsToWidth wordsArr boldStart boldLength maxWidth maxLines).flatten.map
      SWord.text).Sublist wordsArr ∧
    ((wrapWordsToWidth wordsArr boldStart boldLength maxWidth maxLines).flatten.map
        SWord.text = wordsArr ∨
     (wrapWordsToWidth wordsArr boldStart boldLength maxWidth maxLines).length = maxLines) := by
  have hfs_pack : ∀ l ∈ packGo maxWidth maxLines (styleWords wordsArr boldStart boldLength) [] 0 [],
      fitsOrSingle maxWidth l := by
    apply packGo_fits
    · intro l h; cases h
    · rfl
    · left; rfl
  have hrep_fs := widowPass_FS maxWidth _ hfs_pack
  have hclamp := clampPass_id maxWidth
    (widowPass maxWidth (packGo maxWidth maxLines (styleWords wordsArr boldStart boldLength) [] 0 []))
    hrep_fs
  have hout : wrapWordsToWidth wordsArr boldStart boldLength maxWidth maxLines =
      (widowPass maxWidth
        (packGo maxWidth maxLines (styleWords wordsArr boldStart boldLength) [] 0 [])).take
        maxLines := by
    unfold wrapWordsToWidth
    dsimp only
    rw [hclamp]
  rw [hout]
  set W := widowPass maxWidth
    (packGo maxWidth maxLines (styleWords wordsArr boldStart boldLength) [] 0 []) with hW
  have hWlen : W.length =
      (packGo maxWidth maxLines (styleWords wordsArr boldStart boldLength) [] 0 []).length :=
    widowPass_length maxWidth _
  have hWflat : W.flatten =
      (packGo maxWidth maxLines (styleWords wordsArr boldStart boldLength) [] 0 []).flatten :=
    widowPass_flatten maxWidth _
  refine ⟨?_, ?_, ?_⟩
  · rw [List.length_take]
    exact min_le_left _ _
  · obtain ⟨t, u, hsp, hflat⟩ :=
      packGo_flatten_split maxWidth maxLines (styleWords wordsArr boldStart boldLength) [] 0 []
    have hdecomp : (W.take maxLines).flatten ++ (W.drop maxLines).flatten = W.flatten := by
      rw [← List.flatten_append, List.take_append_drop]
    have hpref : ∃ v, styleWords wordsArr boldStart boldLength =
        (W.take maxLines).flatten ++ v := by
      rcases hflat with h | h
      · refine ⟨(W.drop maxLines).flatten ++ u, ?_⟩
        have ht : (W.take maxLines).flatten ++ (W.drop maxLines).flatten = t := by
          rw [hdecomp, hWflat, h]; simp
        rw [hsp, ← ht]
        simp [List.append_assoc]
      · have h0 : W.flatten = [] := by rw [hWflat, h]; simp
        have : (W.take maxLines).flatten = [] := by
          have := hdecomp
          rw [h0] at this
          exact List.append_eq_nil.mp this |>.1
        exact ⟨styleWords wordsArr boldStart boldLength, by rw [this]; simp⟩
    obtain ⟨v, hv⟩ := hpref
    have hmap : wordsArr = ((W.take maxLines).flatten.map SWord.text) ++ v.map SWord.text := by
      rw [← List.map_append, ← hv, styleWords_texts]
    rw [hmap]
    exact List.sublist_append_left _ _
  · by_cases hml : maxLines ≤
        (packGo maxWidth maxLines (styleWords wordsArr boldStart boldLength) [] 0 []).length
    · right
      rw [List.length_take, hWlen]
      omega
    · left
      rcases packGo_cases maxWidth maxLines (styleWords wordsArr boldStart boldLength) [] 0 []
        with hcomp | hge
      · have hWfull : W.take maxLines = W := by
          apply List.take_of_length_le
          rw [hWlen]
          omega
        rw [hWfull, hWflat]
        have : (packGo maxWidth maxLines (styleWords wordsArr boldStart boldLength) [] 0
            []).flatten = styleWords wordsArr boldStart boldLength := by
          simpa using hcomp
        rw [this, styleWords_texts]
      · exact absurd hge hml

/-- Claim C9: after the repair passes, every emitted line has estimated
width within the budget, except that a single word wider than the whole
budget is kept as an over-width one-word line. -/
theorem c9_wrap_width (wordsArr : List JStr) (boldStart boldLength : Int)
    (maxWidth : Int) (maxLines : Nat) :
    ∀ l ∈ wrapWordsToWidth wordsArr boldStart boldLength maxWidth maxLines,
      lineWidth l ≤ maxWidth ∨
      ∃ s, l = [s] ∧ maxWidth < estimateWordWidth s.text s.isBold := by
  have hfs_pack : ∀ l ∈ packGo maxWidth maxLines (styleWords wordsArr boldStart boldLength) [] 0 [],
      fitsOrSingle maxWidth l := by
    apply packGo_fits
    · intro l h; cases h
    · rfl
    · left; rfl
  have hrep_fs := widowPass_FS maxWidth _ hfs_pack
  have hclamp := clampPass_id maxWidth
    (widowPass maxWidth (packGo maxWidth maxLines (styleWords wordsArr boldStart boldLength) [] 0 []))
    hrep_fs
  intro l hl
  unfold wrapWordsToWidth at hl
  dsimp only at hl
  rw [hclamp] at hl
  have hlW := List.mem_of_mem_take hl
  have hfs := hrep_fs l hlW
  rcases hfs with hle | hone
  · left; exact hle
  · obtain ⟨s, rfl⟩ := List.length_eq_one.mp hone
    by_cases hfit : lineWidth [s] ≤ maxWidth
    · left; exact hfit
    · right
      refine ⟨s, rfl, ?_⟩
      have : lineWidth [s] = ewW s := lineWidth_singleton s
      unfold ewW at this
      omega

/-- Witness for C9 on a concrete one-word headline. -/
theorem c9_wrap_width_witness :
    lineWidth [⟨("Governo").data, false⟩] ≤ 96000 ∨
    ∃ s, ([⟨("Governo").data, false⟩] : List SWord) = [s] ∧
      96000 < estimateWordWidth s.text s.isBold :=
  c9_wrap_width [("Governo").data] (-1) 0 96000 3 [⟨("Governo").data, false⟩] (by decide)

/-! ## Headline shortener (`finalizeHeadline` / `fixNominationEndings`, `server.js`) -/

/-- `replace(/…|\.\.\./g, '')`: remove every `…` and every run of
exactly three dots (a run of `k` dots keeps `k mod 3`). -/
def strip3 : JStr → JStr
  | [] => []
  | '…' :: r => strip3 r
  | '.' :: '.' :: '.' :: r => strip3 r
  | c :: r => c :: strip3 r

/-- `alt` is a case-insensitive prefix of the text (alternatives are stored
lowercase, as in the source). -/
def ciMatches : JStr → JStr → Bool
  | [], _ => true
  | _ :: _, [] => false
  | a :: as, c :: cs => jsLower c == a && ciMatches as cs

def optWordB : Option Char → Bool
  | some c => isWordCharJS c
  | none => false

/-- One alternative of a `/\b(w1|w2|...)\b/gi` regex matches at the current
position: case-insensitive literal match plus a word boundary on each side
(`prev` is the character before the position). -/
def tryAlt (prev : Option Char) (s : JStr) (alt : JStr) : Bool :=
  ciMatches alt s &&
  (optWordB prev != optWordB s.head?) &&
  (optWordB ((s.take alt.length).getLast?) != optWordB ((s.drop alt.length).head?))

/-- Global replacement of `/\b(alt1|alt2|...)\b/gi` by the empty string:
scan left to right, at each position try the alternatives in order, skip
past a match (tracking the previous character for the next boundary
check), else advance one character.  The fuel argument (the input length
suffices, every step consuming at least one character) keeps the recursion
structural. -/
def replaceAltsF (alts : List JStr) : Nat → Option Char → JStr → JStr
  | 0, _, s => s
  | _, _, [] => []
  | fuel + 1, prev, c :: rest =>
    match alts.find? (fun a => tryAlt prev (c :: rest) a) with
    | some a =>
      match a with
      | [] => c :: replaceAltsF alts fuel (some c) rest
      | x :: xs =>
        replaceAltsF alts fuel (((c :: rest).take (x :: xs).length).getLast?)
          ((c :: rest).drop (x :: xs).length)
    | none => c :: replaceAltsF alts fuel (some c) rest

def replaceAlts (alts : List JStr) (s : JStr) : JStr :=
  replaceAltsF alts s.length none s

def removalRound1 : List JStr :=
  ["para", "por", "com", "sobre", "entre", "após", "antes", "durante"].map
    (fun x => x.data)

def removalRound2 : List JStr :=
  ["de", "da", "do", "das", "dos", "no", "na", "nos", "nas"].map (fun x => x.data)

def removalRound3 : List JStr :=
  ["é", "foi", "será", "está", "estão", "foram", "seriam", "seriam", "será",
   "seriam"].map (fun x => x.data)

def splitters : List JStr := [" — ", " - ", " – ", ": "].map (fun x => x.data)

/-- `t.split(sep)[0]`: the prefix before the first occurrence of `sep`. -/
def breakAtSub (sep : JStr) : JStr → JStr
  | [] => []
  | c :: r => if sep.isPrefixOf (c :: r) then [] else c :: breakAtSub sep r

/-- The subtitle-splitter loop: truncate at the first contained separator
whose head is at least 60% of the budget (`head.length >= maxLength * 0.6`,
stated over naturals as `10·len ≥ 6·max`). -/
def applySplitters (maxLength : Nat) : List JStr → JStr → JStr
  | [], t => t
  | sep :: rest, t =>
    if containsSub t sep then
      if 6 * maxLength ≤ 10 * (breakAtSub sep t).length then jsTrim (breakAtSub sep t)
      else applySplitters maxLength rest t
    else applySplitters maxLength rest t

/-- The stop-word removal rounds, each followed by whitespace collapsing
and trimming, stopping as soon as the text fits. -/
def applyRounds (maxLength : Nat) : List (List JStr) → JStr → JStr
  | [], t => t
  | rx :: rest, t =>
    if t.length ≤ maxLength then t
    else applyRounds maxLength rest (jsTrim (collapseWs (replaceAlts rx t)))

/-- The word-packing loop: keep extending the accumulator word by word
while it stays within the budget. -/
def packWords (maxLength : Nat) : List JStr → JStr → JStr
  | [], acc => acc
  | w :: rest, acc =>
    let next := if acc = [] then w else acc ++ ' ' :: w
    if next.length ≤ maxLength then packWords maxLength rest next else acc

def badEndings : List JStr :=
  ["de", "da", "do", "das", "dos", "no", "na", "nos", "nas", "em", "por",
   "para", "com", "é", "foi", "será", "está", "são", "foram", "nomeado",
   "nomeada", "anunciado", "anunciada", "confirmado", "confirmada"].map
    (fun x => x.data)

/-- The bad-ending pop loop, on the reversed token list: pop while the last
token is a bad ending and at least two tokens remain. -/
def dropBadRev : List JStr → List JStr
  | x :: y :: rest =>
    if jsLowerStr x ∈ badEndings then dropBadRev (y :: rest) else x :: y :: rest
  | other => other

def dropBadLoop (toks : List JStr) : List JStr := (dropBadRev toks.reverse).reverse

/-- The reversed string starts with `nomead[oa]` read backwards
(case-insensitively): `[oa], d, a, e, m, o, n`. -/
def nomeadRevMatch (l : JStr) : Bool :=
  match l with
  | x0 :: x1 :: x2 :: x3 :: x4 :: x5 :: x6 :: _ =>
    (jsLower x0 == 'o' || jsLower x0 == 'a') && jsLower x1 == 'd' &&
    jsLower x2 == 'a' && jsLower x3 == 'e' && jsLower x4 == 'm' &&
    jsLower x5 == 'o' && jsLower x6 == 'n'
  | _ => false

/-- `/\bnomead[oa]$/i.test(t)`. -/
def endsNomeadoB (t : JStr) : Bool :=
  nomeadRevMatch t.reverse &&
  (match t.reverse.drop 7 with
   | [] => true
   | p :: _ => !isWordCharJS p)

/-- `t.replace(/\s+é nomead[oa]$/i, ' nomeado')`. -/
def replaceEnomeado (t : JStr) : JStr :=
  match t.reverse with
  | _ :: _ :: _ :: _ :: _ :: _ :: _ :: s7 :: e8 :: rest =>
    if nomeadRevMatch t.reverse && s7 == ' ' && jsLower e8 == 'é' &&
       (match rest with | r0 :: _ => isJsSpace r0 | [] => false) then
      (rest.dropWhile isJsSpace).reverse ++ (" nomeado").data
    else t
  | _ => t

/-- `t.replace(/\s*nomead[oa]$/i, '')` (applied when the test succeeded):
drop the trailing `nomead[oa]` and the whitespace run before it. -/
def stripNomeadoTail (t : JStr) : JStr :=
  ((t.reverse.drop 7).dropWhile isJsSpace).reverse

/-- `finalizeHeadline(text, maxLength)` of `server.js`. -/
def finalizeHeadline (text : JStr) (maxLength : Nat) : JStr :=
  if text = [] then text
  else
    let t1 := jsTrim (collapseWs (strip3 text))
    let t2 := applySplitters maxLength splitters t1
    let t3 := applyRounds maxLength [removalRound1, removalRound2, removalRound3] t2
    let t4 := if maxLength < t3.length then jsTrim (packWords maxLength (splitSpace t3) [])
      else t3
    let t5 := jsTrim (joinSpace (dropBadLoop (splitSpace t4)))
    let t6 := replaceEnomeado t5
    if endsNomeadoB t6 then jsTrim (stripNomeadoTail t6) else t6

def assumeCargo : JStr := ("assume cargo").data

/-- `/\bé nomead[oa]$/i.test(t)` (the boundary before the non-word `é`
requires a word character right before it). -/
def endsENomeadoB (t : JStr) : Bool :=
  match t.reverse with
  | _ :: _ :: _ :: _ :: _ :: _ :: _ :: s7 :: e8 :: rest =>
    nomeadRevMatch t.reverse && s7 == ' ' && jsLower e8 == 'é' &&
    (match rest with | r0 :: _ => isWordCharJS r0 | [] => false)
  | _ => false

/-- `fixNominationEndings(text)` of `server.js`. -/
def fixNominationEndings (t : JStr) : JStr :=
  if t = [] then t
  else if endsNomeadoB t then jsTrim (t.take (t.length - 7) ++ assumeCargo)
  else if endsENomeadoB t then jsTrim (t.take (t.length - 9) ++ assumeCargo)
  else t

/-! ### Character-class facts -/

theorem charOfNat_toNat {n : Nat} (h : n.isValidChar) : (Char.ofNat n).toNat = n := by
  unfold Char.ofNat
  rw [dif_pos h]
  rfl

theorem jsLower_of_space {c : Char} (hc : isJsSpace c = true) : jsLower c = c := by
  unfold isJsSpace at hc
  unfold jsLower
  simp only [Bool.or_eq_true, beq_iff_eq, Bool.and_eq_true, decide_eq_true_eq] at hc
  rw [if_neg, if_neg]
  · omega
  · omega

theorem isWordCharJS_of_lower {c x : Char} (hx : 97 ≤ x.toNat ∧ x.toNat ≤ 122)
    (h : jsLower c = x) : isWordCharJS c = true := by
  unfold jsLower at h
  unfold isWordCharJS
  by_cases h1 : 65 ≤ c.toNat ∧ c.toNat ≤ 90
  · simp only [Bool.or_eq_true, Bool.and_eq_true, decide_eq_true_eq]
    omega
  · rw [if_neg h1] at h
    by_cases h2 : 192 ≤ c.toNat ∧ c.toNat ≤ 222 ∧ c.toNat ≠ 215
    · rw [if_pos h2] at h
      exfalso
      have hv : (c.toNat + 32).isValidChar := by
        left
        omega
      have := charOfNat_toNat hv
      rw [h] at this
      omega
    · rw [if_neg h2] at h
      subst h
      simp only [Bool.or_eq_true, Bool.and_eq_true, decide_eq_true_eq]
      omega

theorem space_ne_lower_letter {c x : Char} (hsp : isJsSpace c = true)
    (hx : 97 ≤ x.toNat ∧ x.toNat ≤ 122) : jsLower c ≠ x := by
  intro h
  have hw := isWordCharJS_of_lower hx h
  unfold isWordCharJS at hw
  unfold isJsSpace at hsp
  simp only [Bool.or_eq_true, beq_iff_eq, Bool.and_eq_true, decide_eq_true_eq] at hw hsp
  omega

/-! ### Character membership through the string operations -/

theorem mem_strip3 : ∀ {l : JStr} {c : Char}, c ∈ strip3 l → c ∈ l := by
  intro l
  induction l using strip3.induct with
  | case1 => intro c h; cases h
  | case2 r ih =>
    intro c h
    rw [strip3] at h
    exact List.mem_cons_of_mem _ (ih h)
  | case3 r ih =>
    intro c h
    rw [strip3] at h
    simp only [List.mem_cons]
    exact Or.inr (Or.inr (Or.inr (ih h)))
  | case4 x r h1 h2 ih =>
    intro c h
    rw [strip3] at h
    · simp only [List.mem_cons] at h ⊢
      rcases h with h | h
      · exact Or.inl h
      · exact Or.inr (ih h)
    · exact h1
    · exact h2

theorem not_dots_strip3 : ∀ {l : JStr}, '…' ∉ strip3 l := by
  intro l
  induction l using strip3.induct with
  | case1 => simp [strip3]
  | case2 r ih => rw [strip3]; exact ih
  | case3 r ih => rw [strip3]; exact ih
  | case4 x r h1 h2 ih =>
    rw [strip3]
    · simp only [List.mem_cons, not_or]
      exact ⟨fun h => h1 h.symm, ih⟩
    · exact h1
    · exact h2

theorem mem_collapseGo : ∀ {b : Bool} {l : JStr} {c : Char},
    c ∈ collapseGo b l → c ∈ l ∨ c = ' ' := by
  intro b l
  induction l generalizing b with
  | nil => intro c h; cases h
  | cons x r ih =>
    intro c h
    rw [collapseGo] at h
    by_cases hx : isJsSpace x = true
    · rw [if_pos hx] at h
      by_cases hb : b = true
      · subst hb
        rw [if_pos rfl] at h
        rcases ih h with h2 | h2
        · exact Or.inl (List.mem_cons_of_mem _ h2)
        · exact Or.inr h2
      · have hb' : b = false := by
          cases b
          · rfl
          · exact absurd rfl hb
        subst hb'
        simp only [Bool.false_eq_true, if_false, List.mem_cons] at h
        rcases h with h2 | h2
        · exact Or.inr h2
        · rcases ih h2 with h3 | h3
          · exact Or.inl (List.mem_cons_of_mem _ h3)
          · exact Or.inr h3
    · rw [if_neg hx] at h
      rcases List.mem_cons.mp h with h2 | h2
      · exact Or.inl (by simp [h2])
      · rcases ih h2 with h3 | h3
        · exact Or.inl (List.mem_cons_of_mem _ h3)
        · exact Or.inr h3

theorem mem_collapseWs {l : JStr} {c : Char} (h : c ∈ collapseWs l) :
    c ∈ l ∨ c = ' ' := mem_collapseGo h

theorem collapse_onlySpace : ∀ {b : Bool} {l : JStr} {c : Char},
    c ∈ collapseGo b l → isJsSpace c = true → c = ' ' := by
  intro b l
  induction l generalizing b with
  | nil => intro c h; cases h
  | cons x r ih =>
    intro c h hws
    rw [collapseGo] at h
    by_cases hx : isJsSpace x = true
    · rw [if_pos hx] at h
      by_cases hb : b = true
      · subst hb
        rw [if_pos rfl] at h
        exact ih h hws
      · have hb' : b = false := by
          cases b
          · rfl
          · exact absurd rfl hb
        subst hb'
        simp only [Bool.false_eq_true, if_false, List.mem_cons] at h
        rcases h with h2 | h2
        · exact h2
        · exact ih h2 hws
    · rw [if_neg hx] at h
      rcases List.mem_cons.mp h with h2 | h2
      · subst h2
        exact absurd hws hx
      · exact ih h2 hws

theorem mem_jsTrim {l : JStr} {c : Char} (h : c ∈ jsTrim l) : c ∈ l := by
  unfold jsTrim at h
  rw [List.mem_reverse] at h
  have h2 := (List.dropWhile_suffix isJsSpace).mem h
  rw [List.mem_reverse] at h2
  exact (List.dropWhile_suffix isJsSpace).mem h2

theorem mem_breakAtSub {sep : JStr} : ∀ {l : JStr} {c : Char},
    c ∈ breakAtSub sep l → c ∈ l := by
  intro l
  induction l with
  | nil => intro c h; cases h
  | cons x r ih =>
    intro c h
    rw [breakAtSub] at h
    split at h
    · cases h
    · rcases List.mem_cons.mp h with h2 | h2
      · simp [h2]
      · exact List.mem_cons_of_mem _ (ih h2)

theorem mem_replaceAltsF {alts : List JStr} :
    ∀ {fuel : Nat} {prev : Option Char} {l : JStr} {c : Char},
      c ∈ replaceAltsF alts fuel prev l → c ∈ l := by
  intro fuel
  induction fuel with
  | zero =>
    intro prev l c h
    simpa [replaceAltsF] using h
  | succ n ih =>
    intro prev l c h
    match l with
    | [] => cases h
    | x :: r =>
      rw [replaceAltsF] at h
      rcases hf : List.find? (fun a => tryAlt prev (x :: r) a) alts with _ | a
      · rw [hf] at h
        rcases List.mem_cons.mp h with h2 | h2
        · simp [h2]
        · exact List.mem_cons_of_mem _ (ih h2)
      · rw [hf] at h
        match a with
        | [] =>
          rcases List.mem_cons.mp h with h2 | h2
          · simp [h2]
          · exact List.mem_cons_of_mem _ (ih h2)
        | y :: ys =>
          have h2 := ih h
          exact (List.drop_suffix _ _).mem h2

theorem splitSpace_ne_nil : ∀ {l : JStr}, splitSpace l ≠ [] := by
  intro l
  induction l with
  | nil => simp [splitSpace]
  | cons x r ih =>
    rw [splitSpace]
    by_cases hx : x = ' '
    · rw [if_pos hx]
      simp
    · rw [if_neg hx]
      rcases hs : splitSpace r with _ | ⟨h0, t0⟩
      · exact absurd hs ih
      · simp

theorem mem_splitSpace : ∀ {l : JStr} {w : JStr} {c : Char},
    w ∈ splitSpace l → c ∈ w → c ∈ l ∧ c ≠ ' ' := by
  intro l
  induction l with
  | nil =>
    intro w c hw hc
    simp [splitSpace] at hw
    subst hw
    cases hc
  | cons x r ih =>
    intro w c hw hc
    rw [splitSpace] at hw
    by_cases hx : x = ' '
    · rw [if_pos hx] at hw
      rcases List.mem_cons.mp hw with h2 | h2
      · subst h2; cases hc
      · obtain ⟨hm, hne⟩ := ih h2 hc
        exact ⟨List.mem_cons_of_mem _ hm, hne⟩
    · rw [if_neg hx] at hw
      rcases hs : splitSpace r with _ | ⟨h0, t0⟩
      · exact absurd hs splitSpace_ne_nil
      · rw [hs] at hw
        rcases List.mem_cons.mp hw with h2 | h2
        · subst h2
          rcases List.mem_cons.mp hc with h3 | h3
          · subst h3
            exact ⟨by simp, hx⟩
          · obtain ⟨hm, hne⟩ := ih (by rw [hs]; simp) h3
            exact ⟨List.mem_cons_of_mem _ hm, hne⟩
        · obtain ⟨hm, hne⟩ := ih (by rw [hs]; simp [h2]) hc
          exact ⟨List.mem_cons_of_mem _ hm, hne⟩

theorem mem_joinSpace : ∀ {toks : List JStr} {c : Char},
    c ∈ joinSpace toks → (∃ w ∈ toks, c ∈ w) ∨ c = ' ' := by
  intro toks
  induction toks with
  | nil => intro c h; cases h
  | cons w rest ih =>
    intro c h
    rcases rest with _ | ⟨w2, rest'⟩
    · exact Or.inl ⟨w, by simp, h⟩
    · rw [show joinSpace (w :: w2 :: rest') = w ++ ' ' :: joinSpace (w2 :: rest') from rfl] at h
      rcases List.mem_append.mp h with h2 | h2
      · exact Or.inl ⟨w, by simp, h2⟩
      · rcases List.mem_cons.mp h2 with h3 | h3
        · exact Or.inr h3
        · rcases ih h3 with ⟨w', hw', hc'⟩ | h4
          · exact Or.inl ⟨w', by simp [hw'], hc'⟩
          · exact Or.inr h4

theorem join_split : ∀ (l : JStr), joinSpace (splitSpace l) = l := by
  intro l
  induction l with
  | nil => rfl
  | cons x r ih =>
    rw [splitSpace]
    by_cases hx : x = ' '
    · rw [if_pos hx]
      subst hx
      rcases hs : splitSpace r with _ | ⟨h0, t0⟩
      · exact absurd hs splitSpace_ne_nil
      · rw [show joinSpace ([] :: h0 :: t0) = [] ++ ' ' :: joinSpace (h0 :: t0) from rfl]
        rw [← hs, ih]
        rfl
    · rw [if_neg hx]
      rcases hs : splitSpace r with _ | ⟨h0, t0⟩
      · exact absurd hs splitSpace_ne_nil
      · rw [hs] at ih
        rcases t0 with _ | ⟨t1, t2⟩
        · show joinSpace [x :: h0] = x :: r
          rw [show joinSpace [x :: h0] = x :: h0 from rfl]
          rw [show joinSpace [h0] = h0 from rfl] at ih
          rw [ih]
        · show joinSpace ((x :: h0) :: t1 :: t2) = x :: r
          rw [show joinSpace ((x :: h0) :: t1 :: t2)
              = (x :: h0) ++ ' ' :: joinSpace (t1 :: t2) from rfl]
          rw [show joinSpace (h0 :: t1 :: t2)
              = h0 ++ ' ' :: joinSpace (t1 :: t2) from rfl] at ih
          simp only [List.cons_append]
          rw [ih]

theorem mem_packWords {maxLength : Nat} : ∀ {ws : List JStr} {acc : JStr} {c : Char},
    c ∈ packWords maxLength ws acc → (∃ w ∈ ws, c ∈ w) ∨ c ∈ acc ∨ c = ' ' := by
  intro ws
  induction ws with
  | nil => intro acc c h; exact Or.inr (Or.inl h)
  | cons w rest ih =>
    intro acc c h
    by_cases hacc : acc = []
    · subst hacc
      have heq : packWords maxLength (w :: rest) [] =
          if w.length ≤ maxLength then packWords maxLength rest w else [] := rfl
      rw [heq] at h
      split at h
      · rcases ih h with ⟨w', hw', hc'⟩ | h2 | h2
        · exact Or.inl ⟨w', by simp [hw'], hc'⟩
        · exact Or.inl ⟨w, by simp, h2⟩
        · exact Or.inr (Or.inr h2)
      · cases h
    · simp only [packWords] at h
      rw [if_neg hacc] at h
      split at h
      · rcases ih h with ⟨w', hw', hc'⟩ | h2 | h2
        · exact Or.inl ⟨w', by simp [hw'], hc'⟩
        · rcases List.mem_append.mp h2 with h3 | h3
          · exact Or.inr (Or.inl h3)
          · rcases List.mem_cons.mp h3 with h4 | h4
            · exact Or.inr (Or.inr h4)
            · exact Or.inl ⟨w, by simp, h4⟩
        · exact Or.inr (Or.inr h2)
      · exact Or.inr (Or.inl h)

theorem dropBadRev_suffix : ∀ (l : List JStr), ∃ k, dropBadRev l = l.drop k := by
  intro l
  induction l with
  | nil => exact ⟨0, rfl⟩
  | cons x r ih =>
    rcases r with _ | ⟨y, rest⟩
    · exact ⟨0, rfl⟩
    · rw [dropBadRev]
      split
      · obtain ⟨k, hk⟩ := ih
        exact ⟨k + 1, by simpa using hk⟩
      · exact ⟨0, rfl⟩

theorem dropBadRev_post : ∀ (l : List JStr) (x : List Char) (rest : List JStr),
    dropBadRev l = x :: rest → rest = [] ∨ jsLowerStr x ∉ badEndings := by
  intro l
  induction l with
  | nil => intro x rest h; cases h
  | cons a r ih =>
    intro x rest h
    rcases r with _ | ⟨y, r'⟩
    · have heq : dropBadRev [a] = [a] := rfl
      rw [heq] at h
      cases h
      exact Or.inl rfl
    · rw [dropBadRev] at h
      split at h
      · exact ih x rest h
      · rename_i hnb
        cases h
        exact Or.inr hnb

theorem dropBadRev_ne_nil : ∀ {l : List JStr}, l ≠ [] → dropBadRev l ≠ [] := by
  intro l
  induction l with
  | nil => intro h; exact absurd rfl h
  | cons a r ih =>
    intro _
    rcases r with _ | ⟨y, r'⟩
    · have heq : dropBadRev [a] = [a] := rfl
      rw [heq]
      simp
    · rw [dropBadRev]
      split
      · exact ih (by simp)
      · simp

theorem mem_dropBadLoop {toks : List JStr} {w : JStr} (h : w ∈ dropBadLoop toks) :
    w ∈ toks := by
  unfold dropBadLoop at h
  rw [List.mem_reverse] at h
  obtain ⟨k, hk⟩ := dropBadRev_suffix toks.reverse
  rw [hk] at h
  have h2 := (List.drop_suffix k toks.reverse).mem h
  rwa [List.mem_reverse] at h2

theorem dropBadLoop_decomp (toks : List JStr) :
    ∃ W, toks = dropBadLoop toks ++ W := by
  obtain ⟨k, hk⟩ := dropBadRev_suffix toks.reverse
  unfold dropBadLoop
  rw [hk]
  refine ⟨(toks.reverse.take k).reverse, ?_⟩
  rw [← List.reverse_append, List.take_append_drop, List.reverse_reverse]

theorem dropBadLoop_ne_nil {toks : List JStr} (h : toks ≠ []) :
    dropBadLoop toks ≠ [] := by
  unfold dropBadLoop
  simp only [ne_eq, List.reverse_eq_nil_iff]
  exact dropBadRev_ne_nil (by simpa using h)

theorem dropBadLoop_last {toks : List JStr} {w : JStr}
    (h : (dropBadLoop toks).getLast? = some w) :
    (dropBadLoop toks).length = 1 ∨ jsLowerStr w ∉ badEndings := by
  unfold dropBadLoop at h ⊢
  rw [List.getLast?_reverse] at h
  rcases hr : dropBadRev toks.reverse with _ | ⟨x, rest⟩
  · rw [hr] at h; cases h
  · rw [hr] at h
    simp only [List.head?_cons, Option.some_inj] at h
    rcases dropBadRev_post toks.reverse x rest hr with h2 | h2
    · subst h2
      left
      simp
    · rw [← h]
      exact Or.inr h2

/-! ### Length monotonicity -/

theorem length_jsTrim_le (l : JStr) : (jsTrim l).length ≤ l.length := by
  unfold jsTrim
  calc ((l.dropWhile isJsSpace).reverse.dropWhile isJsSpace).reverse.length
      = ((l.dropWhile isJsSpace).reverse.dropWhile isJsSpace).length := List.length_reverse _
    _ ≤ (l.dropWhile isJsSpace).reverse.length :=
        (List.dropWhile_suffix isJsSpace).length_le
    _ = (l.dropWhile isJsSpace).length := List.length_reverse _
    _ ≤ l.length := (List.dropWhile_suffix isJsSpace).length_le

theorem join_length_le_append : ∀ (A B : List JStr),
    (joinSpace A).length ≤ (joinSpace (A ++ B)).length := by
  intro A
  induction A with
  | nil => intro B; simp [joinSpace]
  | cons w rest ih =>
    intro B
    rcases rest with _ | ⟨w2, rest'⟩
    · rcases B with _ | ⟨b, B'⟩
      · simp
      · rw [show joinSpace [w] = w from rfl,
            show ([w] ++ b :: B') = w :: b :: B' from rfl,
            show joinSpace (w :: b :: B') = w ++ ' ' :: joinSpace (b :: B') from rfl]
        simp
    · rw [show joinSpace (w :: w2 :: rest') = w ++ ' ' :: joinSpace (w2 :: rest') from rfl,
          show (w :: w2 :: rest') ++ B = w :: ((w2 :: rest') ++ B) from rfl]
      rcases hx : (w2 :: rest') ++ B with _ | ⟨y, ys⟩
      · simp at hx
      · rw [show joinSpace (w :: y :: ys) = w ++ ' ' :: joinSpace (y :: ys) from rfl]
        have h2 := ih B
        rw [hx] at h2
        simp only [List.length_append, List.length_cons]
        omega

theorem length_packWords_le {maxLength : Nat} : ∀ (ws : List JStr) (acc : JStr),
    acc.length ≤ maxLength → (packWords maxLength ws acc).length ≤ maxLength := by
  intro ws
  induction ws with
  | nil => intro acc h; exact h
  | cons w rest ih =>
    intro acc h
    by_cases hacc : acc = []
    · subst hacc
      have heq : packWords maxLength (w :: rest) [] =
          if w.length ≤ maxLength then packWords maxLength rest w else [] := rfl
      rw [heq]
      split
      · rename_i hfit
        exact ih _ hfit
      · simpa using h
    · simp only [packWords]
      rw [if_neg hacc]
      split
      · rename_i hfit
        exact ih _ hfit
      · exact h

theorem length_stripNomeadoTail_le (t : JStr) :
    (stripNomeadoTail t).length ≤ t.length := by
  unfold stripNomeadoTail
  calc ((t.reverse.drop 7).dropWhile isJsSpace).reverse.length
      = ((t.reverse.drop 7).dropWhile isJsSpace).length := List.length_reverse _
    _ ≤ (t.reverse.drop 7).length := (List.dropWhile_suffix isJsSpace).length_le
    _ ≤ t.reverse.length := by simp [List.length_drop]
    _ = t.length := List.length_reverse _

theorem length_replaceEnomeado_le (t : JStr) :
    (replaceEnomeado t).length ≤ t.length := by
  unfold replaceEnomeado
  split
  · rename_i x0 x1 x2 x3 x4 x5 x6 s7 e8 rest heq
    split
    · have hrev : t.reverse.length = t.length := List.length_reverse t
      rw [heq] at hrev
      simp only [List.length_cons] at hrev
      have hdw : (rest.dropWhile isJsSpace).length ≤ rest.length :=
        (List.dropWhile_suffix isJsSpace).length_le
      simp only [List.length_append, List.length_reverse,
        show ((" nomeado").data : JStr).length = 8 from rfl]
      omega
    · exact le_refl _
  · exact le_refl _

/-! ### Whitespace canonicity -/

/-- Every whitespace character of `l` is the plain space `' '`. -/
def onlySp (l : JStr) : Prop := ∀ c ∈ l, isJsSpace c = true → c = ' '

/-- No two adjacent characters of `l` are both spaces. -/
def noAdjSp (l : JStr) : Prop := l.Chain' (fun a b => ¬(a = ' ' ∧ b = ' '))

/-- The canonical whitespace shape produced by `replace(/\s+/g, ' ')` followed
by `trim()`: only plain spaces, never two in a row, none at either end. -/
def wsCanon (l : JStr) : Prop :=
  onlySp l ∧ noAdjSp l ∧
  (∀ h, l.head? = some h → isJsSpace h = false) ∧
  (∀ h, l.getLast? = some h → isJsSpace h = false)

theorem wsCanon_nil : wsCanon [] := by
  refine ⟨fun c hc => absurd hc (List.not_mem_nil c), List.chain'_nil, ?_, ?_⟩
  · intro h hh; cases hh
  · intro h hh; simp at hh

theorem head?_dropWhile_post {p : Char → Bool} : ∀ {l : JStr} {h : Char},
    (l.dropWhile p).head? = some h → p h = false := by
  intro l
  induction l with
  | nil => intro h hh; cases hh
  | cons c r ih =>
    intro h hh
    rw [List.dropWhile_cons] at hh
    split at hh
    · exact ih hh
    · rename_i hp
      simp only [List.head?_cons, Option.some_inj] at hh
      subst hh
      simpa using hp

theorem dropWhile_id_of_head {p : Char → Bool} {l : JStr}
    (hh : ∀ h, l.head? = some h → p h = false) : l.dropWhile p = l := by
  cases l with
  | nil => rfl
  | cons c r =>
    rw [List.dropWhile_cons, if_neg]
    simp [hh c rfl]

theorem jsTrim_getLast_nonws {l : JStr} {h : Char}
    (hx : (jsTrim l).getLast? = some h) : isJsSpace h = false := by
  unfold jsTrim at hx
  rw [List.getLast?_reverse] at hx
  exact head?_dropWhile_post hx

theorem jsTrim_head_nonws {l : JStr} {h : Char}
    (hx : (jsTrim l).head? = some h) : isJsSpace h = false := by
  unfold jsTrim at hx
  rw [List.head?_reverse] at hx
  obtain ⟨t, ht⟩ :=
    List.dropWhile_suffix (l := (l.dropWhile isJsSpace).reverse) isJsSpace
  have hY : (l.dropWhile isJsSpace).reverse.dropWhile isJsSpace ≠ [] := by
    intro hnil
    rw [hnil] at hx
    cases hx
  have h1 : ((l.dropWhile isJsSpace).reverse.dropWhile isJsSpace).getLast? =
      (l.dropWhile isJsSpace).reverse.getLast? := by
    nth_rewrite 2 [← ht]
    exact (List.getLast?_append_of_ne_nil t hY).symm
  rw [h1, List.getLast?_reverse] at hx
  exact head?_dropWhile_post hx

theorem jsTrim_id_of_edges {l : JStr}
    (hh : ∀ h, l.head? = some h → isJsSpace h = false)
    (hl : ∀ h, l.getLast? = some h → isJsSpace h = false) : jsTrim l = l := by
  unfold jsTrim
  rw [dropWhile_id_of_head hh]
  rw [dropWhile_id_of_head (by intro h hx; rw [List.head?_reverse] at hx; exact hl h hx)]
  exact List.reverse_reverse l

theorem jsTrim_idem (l : JStr) : jsTrim (jsTrim l) = jsTrim l :=
  jsTrim_id_of_edges (fun _ hx => jsTrim_head_nonws hx) (fun _ hx => jsTrim_getLast_nonws hx)

theorem noAdjSp_rev {l : JStr} (h : noAdjSp l) : noAdjSp l.reverse := by
  unfold noAdjSp at h ⊢
  rw [List.chain'_reverse]
  exact h.imp (fun a b hab => fun hp => hab ⟨hp.2, hp.1⟩)

theorem noAdjSp_suffix {l m : JStr} (hs : m <:+ l) (h : noAdjSp l) : noAdjSp m :=
  List.Chain'.suffix h hs

theorem noAdjSp_jsTrim {l : JStr} (h : noAdjSp l) : noAdjSp (jsTrim l) :=
  noAdjSp_rev (noAdjSp_suffix (List.dropWhile_suffix isJsSpace)
    (noAdjSp_rev (noAdjSp_suffix (List.dropWhile_suffix isJsSpace) h)))

theorem wsCanon_jsTrim {l : JStr} (h1 : onlySp l) (h2 : noAdjSp l) :
    wsCanon (jsTrim l) := by
  refine ⟨fun c hc => h1 c (mem_jsTrim hc), noAdjSp_jsTrim h2, ?_, ?_⟩
  · exact fun h hx => jsTrim_head_nonws hx
  · exact fun h hx => jsTrim_getLast_nonws hx

theorem collapseGo_chain : ∀ (l : JStr),
    (∀ b, noAdjSp (collapseGo b l)) ∧
    (∀ h, (collapseGo true l).head? = some h → isJsSpace h = false) := by
  intro l
  induction l with
  | nil =>
    constructor
    · intro b; exact List.chain'_nil
    · intro h hh; cases hh
  | cons c r ih =>
    constructor
    · intro b
      rw [collapseGo]
      by_cases hc : isJsSpace c = true
      · rw [if_pos hc]
        by_cases hb : b = true
        · subst hb; rw [if_pos rfl]; exact ih.1 true
        · have hb' : b = false := by
            cases b
            · rfl
            · exact absurd rfl hb
          subst hb'
          simp only [Bool.false_eq_true, if_false]
          unfold noAdjSp
          rw [List.chain'_cons']
          refine ⟨?_, ih.1 true⟩
          intro h hh
          have hz := ih.2 h hh
          intro hp
          rw [hp.2] at hz
          exact absurd hz (by decide)
      · rw [if_neg hc]
        unfold noAdjSp
        rw [List.chain'_cons']
        refine ⟨?_, ih.1 false⟩
        intro h _
        intro hp
        rw [hp.1] at hc
        exact hc (by decide)
    · intro h hh
      rw [collapseGo] at hh
      by_cases hc : isJsSpace c = true
      · rw [if_pos hc, if_pos rfl] at hh
        exact ih.2 h hh
      · rw [if_neg hc] at hh
        simp only [List.head?_cons, Option.some_inj] at hh
        subst hh
        simpa using hc

theorem noAdjSp_collapseWs (l : JStr) : noAdjSp (collapseWs l) :=
  (collapseGo_chain l).1 false

theorem onlySp_collapseWs (l : JStr) : onlySp (collapseWs l) :=
  fun _ hc hws => collapse_onlySpace hc hws

theorem wsCanon_trim_collapse (l : JStr) : wsCanon (jsTrim (collapseWs l)) :=
  wsCanon_jsTrim (onlySp_collapseWs l) (noAdjSp_collapseWs l)

/-- A word containing no whitespace character. -/
def wsFree (w : JStr) : Prop := ∀ c ∈ w, isJsSpace c = false

theorem noAdjSp_of_wsFree {w : JStr} (h : wsFree w) : noAdjSp w := by
  induction w with
  | nil => exact List.chain'_nil
  | cons c r ih =>
    unfold noAdjSp
    rw [List.chain'_cons']
    constructor
    · intro x _ hp
      have hc := h c (by simp)
      rw [hp.1] at hc
      exact absurd hc (by decide)
    · exact ih (fun c hc => h c (List.mem_cons_of_mem _ hc))

theorem wsCanon_of_wsFree {w : JStr} (h : wsFree w) : wsCanon w := by
  refine ⟨?_, noAdjSp_of_wsFree h, ?_, ?_⟩
  · intro c hc hws
    rw [h c hc] at hws
    cases hws
  · intro x hx
    cases w with
    | nil => cases hx
    | cons a b =>
      simp only [List.head?_cons, Option.some_inj] at hx
      rw [← hx]
      exact h a (by simp)
  · intro x hx
    exact h x (List.mem_of_mem_getLast? hx)

theorem breakAtSub_decomp (sep : JStr) : ∀ (l : JStr), ∃ u, l = breakAtSub sep l ++ u := by
  intro l
  induction l with
  | nil => exact ⟨[], rfl⟩
  | cons c r ih =>
    rw [breakAtSub]
    split
    · exact ⟨c :: r, rfl⟩
    · obtain ⟨u, hu⟩ := ih
      exact ⟨u, by rw [List.cons_append, ← hu]⟩

theorem wsCanon_pre_trim {l pre : JStr} (h : wsCanon l) (hp : ∃ u, l = pre ++ u) :
    wsCanon (jsTrim pre) := by
  obtain ⟨u, hu⟩ := hp
  refine wsCanon_jsTrim ?_ ?_
  · intro c hc
    exact h.1 c (by rw [hu]; exact List.mem_append_left _ hc)
  · exact List.Chain'.prefix h.2.1 ⟨u, hu.symm⟩

theorem wsCanon_applySplitters (maxLength : Nat) : ∀ (seps : List JStr) {t : JStr},
    wsCanon t → wsCanon (applySplitters maxLength seps t) := by
  intro seps
  induction seps with
  | nil => intro t h; exact h
  | cons sep rest ih =>
    intro t h
    rw [applySplitters]
    split
    · split
      · exact wsCanon_pre_trim h (breakAtSub_decomp sep t)
      · exact ih h
    · exact ih h

theorem wsCanon_applyRounds (maxLength : Nat) : ∀ (rounds : List (List JStr)) {t : JStr},
    wsCanon t → wsCanon (applyRounds maxLength rounds t) := by
  intro rounds
  induction rounds with
  | nil => intro t h; exact h
  | cons rx rest ih =>
    intro t h
    rw [applyRounds]
    split
    · exact h
    · exact ih (wsCanon_trim_collapse _)

theorem wsCanon_append_word {acc w : JStr} (ha : wsCanon acc) (hne : acc ≠ [])
    (hw : w ≠ []) (hwf : wsFree w) : wsCanon (acc ++ ' ' :: w) := by
  obtain ⟨h1, h2, h3, h4⟩ := ha
  refine ⟨?_, ?_, ?_, ?_⟩
  · intro c hc hws
    rcases List.mem_append.mp hc with h | h
    · exact h1 c h hws
    · rcases List.mem_cons.mp h with h | h
      · exact h
      · rw [hwf c h] at hws
        cases hws
  · unfold noAdjSp
    rw [List.chain'_append]
    refine ⟨h2, ?_, ?_⟩
    · rw [List.chain'_cons']
      refine ⟨?_, noAdjSp_of_wsFree hwf⟩
      intro y hy hp
      have hyw : y ∈ w := by
        cases w with
        | nil => cases hy
        | cons a b =>
          simp only [List.head?_cons, Option.mem_def, Option.some_inj] at hy
          rw [← hy]
          simp
      rw [hp.2] at hyw
      have hws := hwf ' ' hyw
      exact absurd hws (by decide)
    · intro x hx y hy hp
      have hxn := h4 x hx
      rw [hp.1] at hxn
      exact absurd hxn (by decide)
  · intro x hx
    cases acc with
    | nil => exact absurd rfl hne
    | cons a b =>
      rw [List.cons_append, List.head?_cons, Option.some_inj] at hx
      rw [← hx]
      exact h3 a rfl
  · intro x hx
    rw [List.getLast?_append_of_ne_nil acc (by simp)] at hx
    cases w with
    | nil => exact absurd rfl hw
    | cons a b =>
      rw [show (' ' :: a :: b) = [' '] ++ (a :: b) from rfl,
          List.getLast?_append_of_ne_nil [' '] (by simp)] at hx
      exact hwf x (List.mem_of_mem_getLast? hx)

theorem wsCanon_packWords (maxLength : Nat) : ∀ (ws : List JStr) (acc : JStr),
    (∀ w ∈ ws, w ≠ [] ∧ wsFree w) → wsCanon acc →
    wsCanon (packWords maxLength ws acc) := by
  intro ws
  induction ws with
  | nil => intro acc _ h; exact h
  | cons w rest ih =>
    intro acc hok hacc
    by_cases hae : acc = []
    · subst hae
      have heq : packWords maxLength (w :: rest) [] =
          if w.length ≤ maxLength then packWords maxLength rest w else [] := rfl
      rw [heq]
      split
      · exact ih w (fun v hv => hok v (List.mem_cons_of_mem _ hv))
          (wsCanon_of_wsFree (hok w (by simp)).2)
      · exact wsCanon_nil
    · simp only [packWords]
      rw [if_neg hae]
      split
      · exact ih _ (fun v hv => hok v (List.mem_cons_of_mem _ hv))
          (wsCanon_append_word hacc hae (hok w (by simp)).1 (hok w (by simp)).2)
      · exact hacc

theorem splitSpace_pieces_wsFree {l : JStr} (h : onlySp l) :
    ∀ w ∈ splitSpace l, wsFree w := by
  intro w hw c hc
  obtain ⟨hm, hne⟩ := mem_splitSpace hw hc
  by_cases hws : isJsSpace c = true
  · exact absurd (h c hm hws) hne
  · simpa using hws

theorem splitSpace_pieces_ne_nil : ∀ (n : Nat) (l : JStr), l.length ≤ n → l ≠ [] →
    (∀ h, l.head? = some h → h ≠ ' ') →
    (∀ h, l.getLast? = some h → h ≠ ' ') →
    noAdjSp l →
    ∀ w ∈ splitSpace l, w ≠ [] := by
  intro n
  induction n with
  | zero =>
    intro l hlen hne
    rw [Nat.le_zero, List.length_eq_zero] at hlen
    exact absurd hlen hne
  | succ n ih =>
    intro l hlen hne hh hl hchain w hw
    cases l with
    | nil => exact absurd rfl hne
    | cons c r =>
      have hc : c ≠ ' ' := hh c rfl
      rw [splitSpace, if_neg hc] at hw
      rcases hs : splitSpace r with _ | ⟨h0, t0⟩
      · exact absurd hs splitSpace_ne_nil
      · rw [hs] at hw
        rcases List.mem_cons.mp hw with h2 | h2
        · subst h2
          simp
        · cases r with
          | nil =>
            have hs' : splitSpace ([] : JStr) = [[]] := rfl
            rw [hs'] at hs
            injection hs with hsa hsb
            rw [← hsb] at h2
            cases h2
          | cons c2 r' =>
            by_cases hc2 : c2 = ' '
            · subst hc2
              rw [splitSpace, if_pos rfl] at hs
              injection hs with hsa hsb
              rw [← hsb] at h2
              have hr' : r' ≠ [] := by
                intro hnil
                subst hnil
                exact hl ' ' rfl rfl
              have hh' : ∀ h, r'.head? = some h → h ≠ ' ' := by
                intro h hhd hsp
                subst hsp
                have hch := hchain
                unfold noAdjSp at hch
                rw [List.chain'_cons'] at hch
                have hch2 := hch.2
                rw [List.chain'_cons'] at hch2
                exact hch2.1 ' ' hhd ⟨rfl, rfl⟩
              have hl' : ∀ h, r'.getLast? = some h → h ≠ ' ' := by
                intro h hlast
                apply hl
                rw [show (c :: ' ' :: r') = [c, ' '] ++ r' from rfl,
                    List.getLast?_append_of_ne_nil [c, ' '] hr']
                exact hlast
              have hch' : noAdjSp r' := by
                unfold noAdjSp at hchain ⊢
                rw [List.chain'_cons'] at hchain
                have hch2 := hchain.2
                rw [List.chain'_cons'] at hch2
                exact hch2.2
              have hlen' : r'.length ≤ n := by
                simp only [List.length_cons] at hlen
                omega
              exact ih r' hlen' hr' hh' hl' hch' w h2
            · rw [splitSpace, if_neg hc2] at hs
              rcases hs2 : splitSpace r' with _ | ⟨h1, t1⟩
              · exact absurd hs2 splitSpace_ne_nil
              · rw [hs2] at hs
                injection hs with hsa hsb
                have hwmem : w ∈ splitSpace (c2 :: r') := by
                  rw [splitSpace, if_neg hc2, hs2]
                  rw [← hsb] at h2
                  exact List.mem_cons_of_mem _ h2
                have hr : (c2 :: r') ≠ [] := by simp
                have hh' : ∀ h, (c2 :: r').head? = some h → h ≠ ' ' := by
                  intro h hhd
                  simp only [List.head?_cons, Option.some_inj] at hhd
                  rw [← hhd]
                  exact hc2
                have hl' : ∀ h, (c2 :: r').getLast? = some h → h ≠ ' ' := by
                  intro h hlast
                  apply hl
                  rw [show (c :: c2 :: r') = [c] ++ (c2 :: r') from rfl,
                      List.getLast?_append_of_ne_nil [c] hr]
                  exact hlast
                have hch' : noAdjSp (c2 :: r') := by
                  unfold noAdjSp at hchain ⊢
                  rw [List.chain'_cons'] at hchain
                  exact hchain.2
                have hlen' : (c2 :: r').length ≤ n := by
                  simp only [List.length_cons] at hlen ⊢
                  omega
                exact ih (c2 :: r') hlen' hr hh' hl' hch' w hwmem

theorem splitSpace_pieces_good {l : JStr} (h : wsCanon l) (hne : l ≠ []) :
    ∀ w ∈ splitSpace l, w ≠ [] ∧ wsFree w := by
  intro w hw
  refine ⟨?_, splitSpace_pieces_wsFree h.1 w hw⟩
  refine splitSpace_pieces_ne_nil l.length l le_rfl hne ?_ ?_ h.2.1 w hw
  · intro x hx hsp
    rw [hsp] at hx
    exact absurd (h.2.2.1 ' ' hx) (by decide)
  · intro x hx hsp
    rw [hsp] at hx
    exact absurd (h.2.2.2 ' ' hx) (by decide)

/-! ### The last token of a joined token list -/

theorem joinSpace_last_decomp : ∀ (toks : List JStr) (w : JStr),
    toks.getLast? = some w →
    (toks = [w] ∧ joinSpace toks = w) ∨
    (∃ A, joinSpace toks = A ++ ' ' :: w ∧ 2 ≤ toks.length) := by
  intro toks
  induction toks with
  | nil => intro w hw; cases hw
  | cons x rest ih =>
    intro w hw
    cases rest with
    | nil =>
      have hxw : x = w := Option.some_inj.mp hw
      subst hxw
      exact Or.inl ⟨rfl, rfl⟩
    | cons y rest' =>
      have hw' : (y :: rest').getLast? = some w := by
        rw [show (x :: y :: rest') = [x] ++ (y :: rest') from rfl,
            List.getLast?_append_of_ne_nil [x] (by simp)] at hw
        exact hw
      rcases ih w hw' with ⟨h1, h2⟩ | ⟨A, h1, h2⟩
      · right
        refine ⟨x, ?_, by simp⟩
        rw [show joinSpace (x :: y :: rest') = x ++ ' ' :: joinSpace (y :: rest') from rfl, h2]
      · right
        refine ⟨x ++ ' ' :: A, ?_, by simp⟩
        rw [show joinSpace (x :: y :: rest') = x ++ ' ' :: joinSpace (y :: rest') from rfl, h1]
        simp

theorem joinSpace_head : ∀ (toks : List JStr) (x : JStr), toks.head? = some x → x ≠ [] →
    (joinSpace toks).head? = x.head? := by
  intro toks x hx hne
  cases toks with
  | nil => cases hx
  | cons a rest =>
    have hax : a = x := Option.some_inj.mp hx
    cases rest with
    | nil => rw [show joinSpace [a] = a from rfl, hax]
    | cons b r' =>
      rw [show joinSpace (a :: b :: r') = a ++ ' ' :: joinSpace (b :: r') from rfl]
      rw [← hax] at hne ⊢
      cases a with
      | nil => exact absurd rfl hne
      | cons c cs => rfl

/-! ### The `nomead[oa]` tail shapes -/

/-- The terminal shape `…<ws>nomead[oa]`: what the regex `/\s+é nomead[oa]$/`
requires, and the whitespace case of the boundary in `/\bnomead[oa]$/`. -/
def spaceNomead (t : JStr) : Prop :=
  nomeadRevMatch t.reverse = true ∧
  ∃ p rest, t.reverse.drop 7 = p :: rest ∧ isJsSpace p = true

theorem nomeadRevMatch_shape {l : JStr} (h : nomeadRevMatch l = true) :
    ∃ x0 x1 x2 x3 x4 x5 x6 rest, l = x0 :: x1 :: x2 :: x3 :: x4 :: x5 :: x6 :: rest ∧
      (jsLower x0 = 'o' ∨ jsLower x0 = 'a') ∧ jsLower x1 = 'd' ∧ jsLower x2 = 'a' ∧
      jsLower x3 = 'e' ∧ jsLower x4 = 'm' ∧ jsLower x5 = 'o' ∧ jsLower x6 = 'n' := by
  rcases l with _ | ⟨x0, _ | ⟨x1, _ | ⟨x2, _ | ⟨x3, _ | ⟨x4, _ | ⟨x5, _ | ⟨x6, rest⟩⟩⟩⟩⟩⟩⟩
  · simp [nomeadRevMatch] at h
  · simp [nomeadRevMatch] at h
  · simp [nomeadRevMatch] at h
  · simp [nomeadRevMatch] at h
  · simp [nomeadRevMatch] at h
  · simp [nomeadRevMatch] at h
  · simp [nomeadRevMatch] at h
  · rw [nomeadRevMatch] at h
    simp only [Bool.and_eq_true, Bool.or_eq_true, beq_iff_eq] at h
    exact ⟨x0, x1, x2, x3, x4, x5, x6, rest, rfl,
      h.1.1.1.1.1.1, h.1.1.1.1.1.2, h.1.1.1.1.2, h.1.1.1.2, h.1.1.2, h.1.2, h.2⟩

theorem nonws_of_lower_letter {c x : Char} (hx : 97 ≤ x.toNat ∧ x.toNat ≤ 122)
    (h : jsLower c = x) : isJsSpace c = false := by
  by_cases hs : isJsSpace c = true
  · exact absurd h (space_ne_lower_letter hs hx)
  · simpa using hs

theorem nomead_nonws_at {l : JStr} (h : nomeadRevMatch l = true) :
    ∀ k, k < 7 → ∀ c, l[k]? = some c → isJsSpace c = false := by
  obtain ⟨x0, x1, x2, x3, x4, x5, x6, rest, hl, h0, h1, h2, h3, h4, h5, h6⟩ :=
    nomeadRevMatch_shape h
  subst hl
  intro k hk c hc
  interval_cases k <;>
    simp only [List.getElem?_cons_zero, List.getElem?_cons_succ, Option.some_inj] at hc
  · rw [← hc]
    rcases h0 with h0 | h0
    · exact nonws_of_lower_letter (by decide) h0
    · exact nonws_of_lower_letter (by decide) h0
  · rw [← hc]; exact nonws_of_lower_letter (by decide) h1
  · rw [← hc]; exact nonws_of_lower_letter (by decide) h2
  · rw [← hc]; exact nonws_of_lower_letter (by decide) h3
  · rw [← hc]; exact nonws_of_lower_letter (by decide) h4
  · rw [← hc]; exact nonws_of_lower_letter (by decide) h5
  · rw [← hc]; exact nonws_of_lower_letter (by decide) h6

theorem join_no_space_nomead (toks : List JStr)
    (hok : ∀ w ∈ toks, w ≠ [] ∧ wsFree w)
    (hlast : ∀ w, toks.getLast? = some w → toks.length = 1 ∨ jsLowerStr w ∉ badEndings) :
    ¬ spaceNomead (joinSpace toks) := by
  intro hsn
  obtain ⟨hm, p, rest, hdrop, hws⟩ := hsn
  cases htoks : toks.getLast? with
  | none =>
    rw [List.getLast?_eq_none_iff] at htoks
    subst htoks
    rw [show joinSpace [] = ([] : JStr) from rfl] at hdrop
    cases hdrop
  | some w =>
    rcases joinSpace_last_decomp toks w htoks with ⟨h1, h2⟩ | ⟨A, h2, hlen2⟩
    · have hwf := (hok w (by rw [h1]; simp)).2
      have hp : p ∈ joinSpace toks := by
        have hp1 : p ∈ (joinSpace toks).reverse.drop 7 := by rw [hdrop]; simp
        have hp2 := (List.drop_suffix 7 _).mem hp1
        rw [List.mem_reverse] at hp2
        exact hp2
      rw [h2] at hp
      rw [hwf p hp] at hws
      cases hws
    · have hwlast := hlast w htoks
      have hwne := (hok w (List.mem_of_mem_getLast? htoks)).1
      have hwf := (hok w (List.mem_of_mem_getLast? htoks)).2
      have hrev : (joinSpace toks).reverse = w.reverse ++ ' ' :: A.reverse := by
        rw [h2]
        simp
      rcases lt_trichotomy w.length 7 with hlt | heq7 | hgt
      · have hpos : (joinSpace toks).reverse[w.length]? = some ' ' := by
          rw [hrev, List.getElem?_append_right (by simp)]
          simp
        have hns := nomead_nonws_at hm w.length hlt ' ' hpos
        exact absurd hns (by decide)
      · obtain ⟨x0, x1, x2, x3, x4, x5, x6, rest', hl, h0, h1, h2', h3, h4, h5, h6⟩ :=
          nomeadRevMatch_shape hm
        have hw7 : w.reverse = [x0, x1, x2, x3, x4, x5, x6] := by
          have htk := congrArg (List.take 7) (hrev.symm.trans hl)
          rw [show (7 : Nat) = w.reverse.length from by simp [heq7],
              List.take_left] at htk
          rw [htk]
          simp [heq7]
        have hwval : w = [x6, x5, x4, x3, x2, x1, x0] := by
          rw [← List.reverse_reverse w, hw7]
          rfl
        have hmem : jsLowerStr w ∈ badEndings := by
          rw [hwval]
          rw [show jsLowerStr [x6, x5, x4, x3, x2, x1, x0] =
            [jsLower x6, jsLower x5, jsLower x4, jsLower x3, jsLower x2,
             jsLower x1, jsLower x0] from rfl]
          rw [h6, h5, h4, h3, h2', h1]
          rcases h0 with h0 | h0
          · rw [h0]
            decide
          · rw [h0]
            decide
        rcases hwlast with hwlast | hwlast
        · omega
        · exact hwlast hmem
      · have h7 : (joinSpace toks).reverse[7]? = some p := by
          rw [← List.head?_drop, hdrop]
          rfl
        rw [hrev, List.getElem?_append_left (by simp; omega)] at h7
        have hpw := List.getElem?_mem h7
        rw [List.mem_reverse] at hpw
        rw [hwf p hpw] at hws
        cases hws

/-! ### The finalize pipeline, decomposed at the canonical midpoint -/

/-- Steps 1–4 of `finalizeHeadline` (normalisation, splitters, removal
rounds, word packing). -/
def finalizeT4 (text : JStr) (maxLength : Nat) : JStr :=
  let t3 := applyRounds maxLength [removalRound1, removalRound2, removalRound3]
    (applySplitters maxLength splitters (jsTrim (collapseWs (strip3 text))))
  if maxLength < t3.length then jsTrim (packWords maxLength (splitSpace t3) []) else t3

/-- Steps 5–6 of `finalizeHeadline` (bad-ending pops, `nomead[oa]` repairs). -/
def finalizeTail (t4 : JStr) : JStr :=
  let t6 := replaceEnomeado (jsTrim (joinSpace (dropBadLoop (splitSpace t4))))
  if endsNomeadoB t6 then jsTrim (stripNomeadoTail t6) else t6

theorem finalizeHeadline_decomp (text : JStr) (maxLength : Nat) (h : text ≠ []) :
    finalizeHeadline text maxLength = finalizeTail (finalizeT4 text maxLength) := by
  unfold finalizeHeadline finalizeTail finalizeT4
  rw [if_neg h]

theorem wsCanon_finalizeT4 (text : JStr) (maxLength : Nat) :
    wsCanon (finalizeT4 text maxLength) := by
  unfold finalizeT4
  dsimp only
  have h3 := wsCanon_applyRounds maxLength [removalRound1, removalRound2, removalRound3]
    (wsCanon_applySplitters maxLength splitters (wsCanon_trim_collapse (strip3 text)))
  split
  · rename_i hc
    have hne : applyRounds maxLength [removalRound1, removalRound2, removalRound3]
        (applySplitters maxLength splitters (jsTrim (collapseWs (strip3 text)))) ≠ [] := by
      intro hnil
      rw [hnil] at hc
      simp at hc
    have hp := wsCanon_packWords maxLength _ [] (splitSpace_pieces_good h3 hne) wsCanon_nil
    exact wsCanon_jsTrim hp.1 hp.2.1
  · exact h3

theorem finalizeT4_len (text : JStr) (maxLength : Nat) :
    (finalizeT4 text maxLength).length ≤ maxLength := by
  unfold finalizeT4
  dsimp only
  split
  · exact le_trans (length_jsTrim_le _) (length_packWords_le _ [] (by simp))
  · rename_i hc
    omega

/-! ### The repairs of steps 5–6 never fire on canonical input -/

theorem not_word_of_ws {c : Char} (h : isJsSpace c = true) : isWordCharJS c = false := by
  unfold isWordCharJS
  unfold isJsSpace at h
  simp only [Bool.or_eq_true, beq_iff_eq, Bool.and_eq_true, decide_eq_true_eq] at h
  simp only [Bool.or_eq_false_iff, Bool.and_eq_false_iff, beq_eq_false_iff_ne, ne_eq,
    decide_eq_false_iff_not]
  omega

theorem replaceEnomeado_eq_self {t : JStr} (h : ¬ spaceNomead t) : replaceEnomeado t = t := by
  unfold replaceEnomeado
  split
  · rename_i x0 x1 x2 x3 x4 x5 x6 s7 e8 rest heq
    rw [if_neg]
    intro hg
    simp only [Bool.and_eq_true, beq_iff_eq] at hg
    apply h
    refine ⟨hg.1.1.1, s7, e8 :: rest, ?_, ?_⟩
    · rw [show t.reverse.drop 7 = s7 :: e8 :: rest from by rw [heq]; rfl]
    · rw [hg.1.1.2]
      decide
  · rfl

theorem spaceNomead_imp_ends {t : JStr} (h : spaceNomead t) : endsNomeadoB t = true := by
  obtain ⟨hm, p, rest, hdrop, hws⟩ := h
  unfold endsNomeadoB
  rw [hm, hdrop]
  simp only [Bool.true_and]
  rw [not_word_of_ws hws]
  rfl

theorem ends_e_imp_ends {t : JStr} (h : endsENomeadoB t = true) : endsNomeadoB t = true := by
  unfold endsENomeadoB at h
  split at h
  · rename_i x0 x1 x2 x3 x4 x5 x6 s7 e8 rest heq
    simp only [Bool.and_eq_true, beq_iff_eq] at h
    unfold endsNomeadoB
    rw [h.1.1.1, Bool.true_and]
    rw [show t.reverse.drop 7 = s7 :: e8 :: rest from by rw [heq]; rfl]
    show (!isWordCharJS s7) = true
    rw [h.1.1.2]
    decide
  · cases h

theorem jsTrim_getLast_of_nonws {l : JStr} {p : Char} (hl : l.getLast? = some p)
    (hp : isJsSpace p = false) : (jsTrim l).getLast? = some p := by
  have hY : l.dropWhile isJsSpace ≠ [] := by
    intro hnil
    rw [List.dropWhile_eq_nil_iff] at hnil
    have hpm := List.mem_of_mem_getLast? hl
    rw [hnil p hpm] at hp
    cases hp
  obtain ⟨t, ht⟩ := List.dropWhile_suffix (l := l) isJsSpace
  have hYlast : (l.dropWhile isJsSpace).getLast? = some p := by
    rw [← List.getLast?_append_of_ne_nil t hY, ht]
    exact hl
  have hrevhead : (l.dropWhile isJsSpace).reverse.head? = some p := by
    rw [List.head?_reverse]
    exact hYlast
  unfold jsTrim
  rw [dropWhile_id_of_head (by
    intro x hx
    rw [hrevhead] at hx
    rw [← Option.some_inj.mp hx]
    exact hp)]
  rw [List.reverse_reverse]
  exact hYlast

theorem endsNomeadoB_last {t : JStr} (h : endsNomeadoB t = true) :
    ∀ p, t.getLast? = some p → isWordCharJS p = true := by
  intro p hp
  unfold endsNomeadoB at h
  rw [Bool.and_eq_true] at h
  obtain ⟨x0, x1, x2, x3, x4, x5, x6, rest, hl, h0, _, _, _, _, _, _⟩ :=
    nomeadRevMatch_shape h.1
  rw [← List.head?_reverse, hl] at hp
  rw [← Option.some_inj.mp hp]
  rcases h0 with h0 | h0
  · exact isWordCharJS_of_lower (by decide) h0
  · exact isWordCharJS_of_lower (by decide) h0

theorem joinSpace_edges (toks : List JStr) (hne : toks ≠ [])
    (hok : ∀ w ∈ toks, w ≠ [] ∧ wsFree w) :
    (∀ h, (joinSpace toks).head? = some h → isJsSpace h = false) ∧
    (∀ h, (joinSpace toks).getLast? = some h → isJsSpace h = false) := by
  constructor
  · intro h hh
    cases toks with
    | nil => exact absurd rfl hne
    | cons w1 rest =>
      have hw1 := hok w1 (by simp)
      rw [joinSpace_head (w1 :: rest) w1 rfl hw1.1] at hh
      cases hw : w1 with
      | nil => rw [hw] at hw1; exact absurd rfl hw1.1
      | cons a b =>
        rw [hw, List.head?_cons, Option.some_inj] at hh
        rw [← hh]
        exact hw1.2 a (by rw [hw]; simp)
  · intro h hh
    cases hgl : toks.getLast? with
    | none =>
      rw [List.getLast?_eq_none_iff] at hgl
      exact absurd hgl hne
    | some w =>
      have hw := hok w (List.mem_of_mem_getLast? hgl)
      rcases joinSpace_last_decomp toks w hgl with ⟨h1, h2⟩ | ⟨A, h2, _⟩
      · rw [h2] at hh
        exact hw.2 h (List.mem_of_mem_getLast? hh)
      · rw [h2, List.getLast?_append_of_ne_nil A (by simp)] at hh
        cases hcw : w with
        | nil => rw [hcw] at hw; exact absurd rfl hw.1
        | cons a b =>
          rw [hcw, show (' ' :: a :: b) = [' '] ++ (a :: b) from rfl,
              List.getLast?_append_of_ne_nil [' '] (by simp)] at hh
          exact hw.2 h (by rw [hcw]; exact List.mem_of_mem_getLast? hh)

theorem finalizeTail_ok (t4 : JStr) (h4 : wsCanon t4) :
    endsNomeadoB (finalizeTail t4) = false ∧ (finalizeTail t4).length ≤ t4.length := by
  by_cases h0 : t4 = []
  · subst h0
    exact ⟨by decide, by decide⟩
  · have hok' : ∀ w ∈ dropBadLoop (splitSpace t4), w ≠ [] ∧ wsFree w :=
      fun w hw => splitSpace_pieces_good h4 h0 w (mem_dropBadLoop hw)
    have htoksne : dropBadLoop (splitSpace t4) ≠ [] := dropBadLoop_ne_nil splitSpace_ne_nil
    have hedges := joinSpace_edges _ htoksne hok'
    have ht5 : jsTrim (joinSpace (dropBadLoop (splitSpace t4))) =
        joinSpace (dropBadLoop (splitSpace t4)) :=
      jsTrim_id_of_edges hedges.1 hedges.2
    have hspn : ¬ spaceNomead (joinSpace (dropBadLoop (splitSpace t4))) :=
      join_no_space_nomead _ hok' (fun w hw => dropBadLoop_last hw)
    have hJlen : (joinSpace (dropBadLoop (splitSpace t4))).length ≤ t4.length := by
      obtain ⟨W, hW⟩ := dropBadLoop_decomp (splitSpace t4)
      calc (joinSpace (dropBadLoop (splitSpace t4))).length
          ≤ (joinSpace (dropBadLoop (splitSpace t4) ++ W)).length := join_length_le_append _ _
        _ = (joinSpace (splitSpace t4)).length := by rw [← hW]
        _ = t4.length := by rw [join_split]
    have htail : finalizeTail t4 =
        (if endsNomeadoB (joinSpace (dropBadLoop (splitSpace t4))) then
          jsTrim (stripNomeadoTail (joinSpace (dropBadLoop (splitSpace t4))))
        else joinSpace (dropBadLoop (splitSpace t4))) := by
      unfold finalizeTail
      rw [ht5, replaceEnomeado_eq_self hspn]
    rw [htail]
    by_cases hend : endsNomeadoB (joinSpace (dropBadLoop (splitSpace t4))) = true
    · rw [if_pos hend]
      unfold endsNomeadoB at hend
      rw [Bool.and_eq_true] at hend
      constructor
      · cases hdr : (joinSpace (dropBadLoop (splitSpace t4))).reverse.drop 7 with
        | nil =>
          rw [show stripNomeadoTail (joinSpace (dropBadLoop (splitSpace t4))) =
              (((joinSpace (dropBadLoop (splitSpace t4))).reverse.drop 7).dropWhile
                isJsSpace).reverse from rfl, hdr]
          decide
        | cons p rest2 =>
          have hmatch := hend.2
          rw [hdr] at hmatch
          rw [show (match p :: rest2 with
              | [] => true
              | p :: _ => !isWordCharJS p) = !isWordCharJS p from rfl,
            Bool.not_eq_true'] at hmatch
          have hpws : isJsSpace p = false := by
            by_cases hq : isJsSpace p = true
            · exact absurd ⟨hend.1, p, rest2, hdr, hq⟩ hspn
            · simpa using hq
          have hstrip : stripNomeadoTail (joinSpace (dropBadLoop (splitSpace t4))) =
              rest2.reverse ++ [p] := by
            rw [show stripNomeadoTail (joinSpace (dropBadLoop (splitSpace t4))) =
                (((joinSpace (dropBadLoop (splitSpace t4))).reverse.drop 7).dropWhile
                  isJsSpace).reverse from rfl, hdr, List.dropWhile_cons, if_neg (by simp [hpws])]
            rw [List.reverse_cons]
          rw [hstrip]
          have hlastp : (jsTrim (rest2.reverse ++ [p])).getLast? = some p :=
            jsTrim_getLast_of_nonws (List.getLast?_concat _) hpws
          cases her : endsNomeadoB (jsTrim (rest2.reverse ++ [p])) with
          | false => rfl
          | true =>
            have := endsNomeadoB_last her p hlastp
            rw [hmatch] at this
            cases this
      · exact le_trans (length_jsTrim_le _)
          (le_trans (length_stripNomeadoTail_le _) hJlen)
    · rw [if_neg hend]
      exact ⟨by simpa using hend, hJlen⟩

/-! ### Lemmas A and B: the finalized headline fits and never ends in `nomead[oa]` -/

theorem finalize_len (text : JStr) (maxLength : Nat) :
    (finalizeHeadline text maxLength).length ≤ maxLength := by
  by_cases htext : text = []
  · have hfin : finalizeHeadline text maxLength = text := by
      unfold finalizeHeadline
      rw [if_pos htext]
    rw [hfin, htext]
    simp
  · rw [finalizeHeadline_decomp text maxLength htext]
    exact le_trans (finalizeTail_ok _ (wsCanon_finalizeT4 text maxLength)).2
      (finalizeT4_len text maxLength)

theorem finalize_not_nomeado (text : JStr) (maxLength : Nat) :
    endsNomeadoB (finalizeHeadline text maxLength) = false := by
  by_cases htext : text = []
  · have hfin : finalizeHeadline text maxLength = text := by
      unfold finalizeHeadline
      rw [if_pos htext]
    rw [hfin, htext]
    rfl
  · rw [finalizeHeadline_decomp text maxLength htext]
    exact (finalizeTail_ok _ (wsCanon_finalizeT4 text maxLength)).1

theorem fix_of_not_ends {t : JStr} (h : endsNomeadoB t = false) :
    fixNominationEndings t = t := by
  unfold fixNominationEndings
  by_cases ht : t = []
  · rw [if_pos ht]
  · rw [if_neg ht, if_neg (by rw [h]; exact Bool.false_ne_true)]
    rw [if_neg]
    intro he
    rw [ends_e_imp_ends he] at h
    cases h

theorem fix_finalize_len (text : JStr) (maxLength : Nat) :
    (fixNominationEndings (finalizeHeadline text maxLength)).length ≤ maxLength := by
  rw [fix_of_not_ends (finalize_not_nomeado text maxLength)]
  exact finalize_len text maxLength

/-! ### Identity conditions for the individual pipeline steps -/

theorem applySplitters_id (maxLength : Nat) : ∀ (seps : List JStr) (t : JStr),
    (∀ sep ∈ seps, containsSub t sep = true →
      10 * (breakAtSub sep t).length < 6 * maxLength) →
    applySplitters maxLength seps t = t := by
  intro seps
  induction seps with
  | nil => intro t _; rfl
  | cons sep rest ih =>
    intro t h
    rw [applySplitters]
    split
    · rename_i hc
      rw [if_neg (by have := h sep (by simp) hc; omega)]
      exact ih t (fun s hs => h s (List.mem_cons_of_mem _ hs))
    · exact ih t (fun s hs => h s (List.mem_cons_of_mem _ hs))

theorem dropBadLoop_id_of_last {toks : List JStr}
    (h : ∀ w, toks.getLast? = some w → jsLowerStr w ∉ badEndings) :
    dropBadLoop toks = toks := by
  unfold dropBadLoop
  cases hr : toks.reverse with
  | nil =>
    have hnil : toks = [] := List.reverse_eq_nil_iff.mp hr
    rw [hnil]
    rfl
  | cons x rest =>
    have hx : toks.getLast? = some x := by
      rw [← List.head?_reverse, hr]
      rfl
    have hnb := h x hx
    cases rest with
    | nil =>
      rw [show dropBadRev [x] = [x] from rfl, ← hr, List.reverse_reverse]
    | cons y rest' =>
      rw [show dropBadRev (x :: y :: rest') = if jsLowerStr x ∈ badEndings
          then dropBadRev (y :: rest') else x :: y :: rest' from rfl]
      rw [if_neg hnb, ← hr, List.reverse_reverse]

theorem mem_of_containsSub : ∀ {s pat : JStr}, containsSub s pat = true →
    ∀ c ∈ pat, c ∈ s := by
  intro s
  induction s with
  | nil =>
    intro pat h c hc
    rw [containsSub] at h
    split at h
    · rename_i hp
      have hpre := List.isPrefixOf_iff_prefix.mp hp
      have := hpre.sublist.mem hc
      cases this
    · cases h
  | cons x r ih =>
    intro pat h c hc
    rw [containsSub] at h
    split at h
    · rename_i hp
      exact (List.isPrefixOf_iff_prefix.mp hp).sublist.mem hc
    · exact List.mem_cons_of_mem _ (ih h c hc)

theorem collapseGo_id_of_wsFree : ∀ {l : JStr}, wsFree l → collapseWs l = l := by
  intro l
  unfold collapseWs
  induction l with
  | nil => intro _; rfl
  | cons c r ih =>
    intro h
    rw [collapseGo, if_neg (by simp [h c (List.mem_cons_self c r)])]
    rw [ih (fun x hx => h x (List.mem_cons_of_mem _ hx))]

theorem jsTrim_id_of_wsFree {l : JStr} (h : wsFree l) : jsTrim l = l :=
  jsTrim_id_of_edges (fun x hx => h x (List.mem_of_mem_head? hx))
    (fun x hx => h x (List.mem_of_mem_getLast? hx))

theorem splitSpace_of_no_space : ∀ {l : JStr}, (' ' ∉ l) → splitSpace l = [l] := by
  intro l
  induction l with
  | nil => intro _; rfl
  | cons c r ih =>
    intro h
    rw [splitSpace, if_neg (by intro hc; exact h (by rw [← hc]; simp))]
    rw [ih (fun hr => h (List.mem_cons_of_mem _ hr))]

theorem applySplitters_id_of_not_contains (maxLength : Nat) : ∀ (seps : List JStr) {t : JStr},
    (∀ sep ∈ seps, containsSub t sep = false) →
    applySplitters maxLength seps t = t := by
  intro seps
  induction seps with
  | nil => intro t _; rfl
  | cons sep rest ih =>
    intro t h
    rw [applySplitters, if_neg (by rw [h sep (by simp)]; exact Bool.false_ne_true)]
    exact ih (fun s hs => h s (List.mem_cons_of_mem _ hs))

theorem no_space_splitters_id (maxLength : Nat) {t : JStr} (h : ' ' ∉ t) :
    applySplitters maxLength splitters t = t := by
  refine applySplitters_id_of_not_contains maxLength splitters ?_
  intro sep hs
  cases hcs : containsSub t sep with
  | false => rfl
  | true =>
    exfalso
    apply h
    apply mem_of_containsSub hcs
    fin_cases hs <;> decide

/-- C5: the spec claims an already-fitting headline is returned as-is, but
`finalizeHeadline` applies the separator truncation even when the text fits:
`"abcdef: gh"` has length 10 ≤ 10, yet the output is `"abcdef"`. -/
theorem c5_counterexample :
    (("abcdef: gh").data).length ≤ 10 ∧
    finalizeHeadline (("abcdef: gh").data) 10 ≠ ("abcdef: gh").data := by decide

/-- C5 (amended): an already-fitting, already-normalised headline is returned
unchanged provided additionally no separator truncation qualifies, its last
word is not a bad ending, and it does not end in `nomead[oa]`. -/
theorem c5_noop_conditions (text : JStr) (maxLength : Nat)
    (h0 : text ≠ [])
    (h1 : jsTrim (collapseWs (strip3 text)) = text)
    (h2 : text.length ≤ maxLength)
    (h3 : ∀ sep ∈ splitters, containsSub text sep = true →
      10 * (breakAtSub sep text).length < 6 * maxLength)
    (h4 : ∀ w, (splitSpace text).getLast? = some w → jsLowerStr w ∉ badEndings)
    (h5 : endsNomeadoB text = false) :
    finalizeHeadline text maxLength = text := by
  rw [finalizeHeadline_decomp text maxLength h0]
  have htr : jsTrim text = text := by
    conv_lhs => rw [← h1]
    rw [jsTrim_idem]
    exact h1
  have ht4 : finalizeT4 text maxLength = text := by
    unfold finalizeT4
    dsimp only
    rw [h1, applySplitters_id maxLength splitters text h3]
    rw [show applyRounds maxLength [removalRound1, removalRound2, removalRound3] text =
        text from by rw [applyRounds, if_pos h2]]
    rw [if_neg (by omega)]
  rw [ht4]
  unfold finalizeTail
  dsimp only
  rw [dropBadLoop_id_of_last h4, join_split, htr]
  rw [replaceEnomeado_eq_self (fun hsp => by rw [spaceNomead_imp_ends hsp] at h5; cases h5)]
  rw [if_neg (by rw [h5]; exact Bool.false_ne_true)]

theorem c5_noop_conditions_witness :
    finalizeHeadline (("Prefeito anuncia obra").data) 55 = ("Prefeito anuncia obra").data :=
  c5_noop_conditions (("Prefeito anuncia obra").data) 55 (by decide) (by decide) (by decide)
    (by decide) (by decide) (by decide)

/-- C10 counterexample: `"ab...cd"` is a single space-free word longer than
the budget 5 and is untouched by all three stop-word removal rounds, yet the
result is `"abcd"` (the ellipsis strip shortens it below the budget), not the
empty string the claim predicts. -/
theorem c10_counterexample :
    (' ' ∉ ("ab...cd").data) ∧ 5 < (("ab...cd").data).length ∧
    replaceAlts removalRound1 (("ab...cd").data) = ("ab...cd").data ∧
    replaceAlts removalRound2 (("ab...cd").data) = ("ab...cd").data ∧
    replaceAlts removalRound3 (("ab...cd").data) = ("ab...cd").data ∧
    fixNominationEndings (finalizeHeadline (("ab...cd").data) 5) ≠ [] := by decide

/-- C10 (amended): for a whitespace-free single word that the ellipsis strip
leaves unchanged, exceeds the budget, and is untouched by all three stop-word
removal rounds, `finalizeHeadline` returns the empty string and
`fixNominationEndings` leaves that empty result unchanged. -/
theorem c10_single_word_empty (word : JStr) (maxLength : Nat)
    (hws : ∀ c ∈ word, isJsSpace c = false)
    (hne : word ≠ [])
    (hstrip : strip3 word = word)
    (hlen : maxLength < word.length)
    (hr1 : replaceAlts removalRound1 word = word)
    (hr2 : replaceAlts removalRound2 word = word)
    (hr3 : replaceAlts removalRound3 word = word) :
    finalizeHeadline word maxLength = [] ∧
    fixNominationEndings (finalizeHeadline word maxLength) = [] := by
  have hsp : ' ' ∉ word := fun hs => absurd (hws ' ' hs) (by decide)
  have hcw : collapseWs word = word := collapseGo_id_of_wsFree hws
  have htw : jsTrim word = word := jsTrim_id_of_wsFree hws
  have ht1 : jsTrim (collapseWs (strip3 word)) = word := by rw [hstrip, hcw, htw]
  have ht3 : applyRounds maxLength [removalRound1, removalRound2, removalRound3] word
      = word := by
    rw [applyRounds, if_neg (by omega), hr1, hcw, htw]
    rw [applyRounds, if_neg (by omega), hr2, hcw, htw]
    rw [applyRounds, if_neg (by omega), hr3, hcw, htw]
    rfl
  have hfin : finalizeHeadline word maxLength = [] := by
    rw [finalizeHeadline_decomp word maxLength hne]
    have ht4 : finalizeT4 word maxLength = [] := by
      unfold finalizeT4
      dsimp only
      rw [ht1, no_space_splitters_id maxLength hsp, ht3, if_pos hlen]
      rw [splitSpace_of_no_space hsp]
      rw [show packWords maxLength [word] [] = if word.length ≤ maxLength
          then packWords maxLength [] word else [] from rfl]
      rw [if_neg (by omega)]
      rfl
    rw [ht4]
    rfl
  exact ⟨hfin, by rw [hfin]; rfl⟩

theorem c10_single_word_empty_witness :
    finalizeHeadline (("abcdefgh").data) 5 = [] ∧
    fixNominationEndings (finalizeHeadline (("abcdefgh").data) 5) = [] :=
  c10_single_word_empty (("abcdefgh").data) 5 (by decide) (by decide) (by decide) (by decide)
    (by decide) (by decide) (by decide)

/-! ### The condense variant (`part_001`): entity decoding, NFC composition,
the normaliser, and the conservative clamp -/

/-- The character class `[a-zA-Z0-9]` of the entity regex. -/
def isEntAlnum (c : Char) : Bool :=
  let n := c.toNat
  (decide (48 ≤ n) && decide (n ≤ 57)) || (decide (65 ≤ n) && decide (n ≤ 90)) ||
  (decide (97 ≤ n) && decide (n ≤ 122))

/-- The canonical-composition pairs relevant to this code base: Latin letters
with the combining grave (U+0300), acute (U+0301), circumflex (U+0302), tilde
(U+0303), diaeresis (U+0308), and cedilla (U+0327).  `normalize('NFC')` is
modelled as the left-to-right greedy recomposition over this table; the
strings this program processes contain no other combining sequences and no
canonical-ordering (CCC reordering) cases. -/
def compTable : List (Char × Char × Char) :=
  [('A', Char.ofNat 768, 'À'), ('A', Char.ofNat 769, 'Á'), ('A', Char.ofNat 770, 'Â'),
   ('A', Char.ofNat 771, 'Ã'), ('A', Char.ofNat 776, 'Ä'),
   ('a', Char.ofNat 768, 'à'), ('a', Char.ofNat 769, 'á'), ('a', Char.ofNat 770, 'â'),
   ('a', Char.ofNat 771, 'ã'), ('a', Char.ofNat 776, 'ä'),
   ('E', Char.ofNat 768, 'È'), ('E', Char.ofNat 769, 'É'), ('E', Char.ofNat 770, 'Ê'),
   ('E', Char.ofNat 776, 'Ë'),
   ('e', Char.ofNat 768, 'è'), ('e', Char.ofNat 769, 'é'), ('e', Char.ofNat 770, 'ê'),
   ('e', Char.ofNat 776, 'ë'),
   ('I', Char.ofNat 768, 'Ì'), ('I', Char.ofNat 769, 'Í'), ('I', Char.ofNat 770, 'Î'),
   ('I', Char.ofNat 776, 'Ï'),
   ('i', Char.ofNat 768, 'ì'), ('i', Char.ofNat 769, 'í'), ('i', Char.ofNat 770, 'î'),
   ('i', Char.ofNat 776, 'ï'),
   ('O', Char.ofNat 768, 'Ò'), ('O', Char.ofNat 769, 'Ó'), ('O', Char.ofNat 770, 'Ô'),
   ('O', Char.ofNat 771, 'Õ'), ('O', Char.ofNat 776, 'Ö'),
   ('o', Char.ofNat 768, 'ò'), ('o', Char.ofNat 769, 'ó'), ('o', Char.ofNat 770, 'ô'),
   ('o', Char.ofNat 771, 'õ'), ('o', Char.ofNat 776, 'ö'),
   ('U', Char.ofNat 768, 'Ù'), ('U', Char.ofNat 769, 'Ú'), ('U', Char.ofNat 770, 'Û'),
   ('U', Char.ofNat 776, 'Ü'),
   ('u', Char.ofNat 768, 'ù'), ('u', Char.ofNat 769, 'ú'), ('u', Char.ofNat 770, 'û'),
   ('u', Char.ofNat 776, 'ü'),
   ('N', Char.ofNat 771, 'Ñ'), ('n', Char.ofNat 771, 'ñ'),
   ('C', Char.ofNat 807, 'Ç'), ('c', Char.ofNat 807, 'ç')]

def composePair (a b : Char) : Option Char :=
  (compTable.find? (fun t => t.1 == a && t.2.1 == b)).map (fun t => t.2.2)

def composeGo : Char → JStr → JStr
  | c, [] => [c]
  | c, d :: r =>
    match composePair c d with
    | some e => composeGo e r
    | none => c :: composeGo d r

/-- `String.prototype.normalize('NFC')` over the repertoire above. -/
def nfcStr : JStr → JStr
  | [] => []
  | c :: r => composeGo c r

namespace Part001

/-- The entity table of `decodeHtmlEntitiesAll` (object literal, exact,
including the source's `&Aumel;` typo for `Ä`). -/
def entities : List (JStr × JStr) :=
  [(("&amp;").data, ("&").data), (("&lt;").data, ("<").data),
   (("&gt;").data, (">").data), (("&quot;").data, ("\"").data),
   (("&apos;").data, ("'").data), (("&nbsp;").data, (" ").data),
   (("&aacute;").data, ("á").data), (("&Aacute;").data, ("Á").data),
   (("&agrave;").data, ("à").data), (("&Agrave;").data, ("À").data),
   (("&acirc;").data, ("â").data), (("&Acirc;").data, ("Â").data),
   (("&atilde;").data, ("ã").data), (("&Atilde;").data, ("Ã").data),
   (("&auml;").data, ("ä").data), (("&Aumel;").data, ("Ä").data),
   (("&eacute;").data, ("é").data), (("&Eacute;").data, ("É").data),
   (("&egrave;").data, ("è").data), (("&Egrave;").data, ("È").data),
   (("&ecirc;").data, ("ê").data), (("&Ecirc;").data, ("Ê").data),
   (("&iacute;").data, ("í").data), (("&Iacute;").data, ("Í").data),
   (("&igrave;").data, ("ì").data), (("&Igrave;").data, ("Ì").data),
   (("&icirc;").data, ("î").data), (("&Icirc;").data, ("Î").data),
   (("&oacute;").data, ("ó").data), (("&Oacute;").data, ("Ó").data),
   (("&ograve;").data, ("ò").data), (("&Ograve;").data, ("Ò").data),
   (("&ocirc;").data, ("ô").data), (("&Ocirc;").data, ("Ô").data),
   (("&otilde;").data, ("õ").data), (("&Otilde;").data, ("Õ").data),
   (("&uacute;").data, ("ú").data), (("&Uacute;").data, ("Ú").data),
   (("&ugrave;").data, ("ù").data), (("&Ugrave;").data, ("Ù").data),
   (("&ucirc;").data, ("û").data), (("&Ucirc;").data, ("Û").data),
   (("&ccedil;").data, ("ç").data), (("&Ccedil;").data, ("Ç").data),
   (("&ordm;").data, ("º").data), (("&ordf;").data, ("ª").data),
   (("&deg;").data, ("°").data), (("&plusmn;").data, ("±").data),
   (("&sup1;").data, ("¹").data), (("&sup2;").data, ("²").data),
   (("&sup3;").data, ("³").data), (("&frac14;").data, ("¼").data),
   (("&frac12;").data, ("½").data), (("&frac34;").data, ("¾").data),
   (("&iquest;").data, ("¿").data), (("&iexcl;").data, ("¡").data),
   (("&laquo;").data, ("«").data), (("&raquo;").data, ("»").data),
   (("&ldquo;").data, ("\"").data), (("&rdquo;").data, ("\"").data),
   (("&lsquo;").data, ("'").data), (("&rsquo;").data, ("'").data),
   (("&ndash;").data, ("–").data), (("&mdash;").data, ("—").data)]

/-- `entities[m] || m`. -/
def entLookup (m : JStr) : JStr :=
  match entities.find? (fun e => e.1 == m) with
  | some e => e.2
  | none => m

/-- `replace(/&[a-zA-Z0-9]+;/g, e => entities[e] || e)`: a match is an `&`,
a maximal nonempty alphanumeric run, and a `;` right after it.  The fuel
only serves termination and is instantiated with the string length. -/
def entReplaceF : Nat → JStr → JStr
  | 0, s => s
  | _ + 1, [] => []
  | fuel + 1, c :: r =>
    if c = '&' then
      if (r.takeWhile isEntAlnum) ≠ [] ∧
          (r.drop (r.takeWhile isEntAlnum).length).head? = some ';' then
        entLookup (c :: ((r.takeWhile isEntAlnum) ++ [';'])) ++
          entReplaceF fuel (r.drop ((r.takeWhile isEntAlnum).length + 1))
      else c :: entReplaceF fuel r
    else c :: entReplaceF fuel r

/-- `decodeHtmlEntitiesAll` of `part_001`. -/
def decodeHtmlEntitiesAll (text : JStr) : JStr :=
  nfcStr (entReplaceF text.length text)

/-- `replace(/[…]|\.{3,}/g, '')`: drop each `…` and each maximal run of
three or more dots.  The fuel is instantiated with the string length. -/
def stripEllF : Nat → JStr → JStr
  | 0, s => s
  | _ + 1, [] => []
  | fuel + 1, c :: r =>
    if c = '…' then stripEllF fuel r
    else if c = '.' then
      if 2 ≤ (r.takeWhile (fun x => x = '.')).length then
        stripEllF fuel (r.drop (r.takeWhile (fun x => x = '.')).length)
      else c :: stripEllF fuel r
    else c :: stripEllF fuel r

/-- `finalizeHeadline` of `part_001`: decode entities, strip ellipses,
collapse whitespace, trim, NFC-compose. -/
def finalizeHeadline (text : JStr) : JStr :=
  nfcStr (jsTrim (collapseWs (stripEllF (decodeHtmlEntitiesAll text).length
    (decodeHtmlEntitiesAll text))))

/-- JS `lastIndexOf(' ')`, as an optional index. -/
def lastIdxSp : JStr → Option Nat
  | [] => none
  | c :: r =>
    match lastIdxSp r with
    | some k => some (k + 1)
    | none => if c = ' ' then some 0 else none

/-- The conservative fallback of `optimizeTitle` (`MAX = 60`). -/
def conservative (title : JStr) : JStr :=
  let cleaned := finalizeHeadline title
  if 60 < cleaned.length then
    match lastIdxSp (cleaned.take 61) with
    | some cut =>
      if 40 < cut then jsTrim ((cleaned.take 61).take cut) else jsTrim (cleaned.take 60)
    | none => jsTrim (cleaned.take 60)
  else cleaned

end Part001

/-! ### Facts about the NFC recomposition -/

theorem composeGo_ne_nil : ∀ (r : JStr) (c : Char), composeGo c r ≠ [] := by
  intro r
  induction r with
  | nil => intro c; simp [composeGo]
  | cons d r ih =>
    intro c
    rw [composeGo]
    cases composePair c d with
    | some e => exact ih e
    | none => simp

theorem composePair_out {a b e : Char} (h : composePair a b = some e) :
    ∃ t ∈ compTable, e = t.2.2 := by
  unfold composePair at h
  cases hf : compTable.find? (fun t => t.1 == a && t.2.1 == b) with
  | none => rw [hf] at h; cases h
  | some t =>
    rw [hf] at h
    simp only [Option.map_some', Option.some_inj] at h
    exact ⟨t, List.mem_of_find?_eq_some hf, h.symm⟩

theorem mem_composeGo : ∀ {r : JStr} {c x : Char}, x ∈ composeGo c r →
    x ∈ c :: r ∨ ∃ t ∈ compTable, x = t.2.2 := by
  intro r
  induction r with
  | nil =>
    intro c x h
    rw [composeGo] at h
    exact Or.inl h
  | cons d r ih =>
    intro c x h
    rw [composeGo] at h
    cases hp : composePair c d with
    | some e =>
      rw [hp] at h
      rcases ih h with h2 | h2
      · rcases List.mem_cons.mp h2 with h3 | h3
        · rw [h3]
          exact Or.inr (composePair_out hp)
        · exact Or.inl (by simp [h3])
      · exact Or.inr h2
    | none =>
      rw [hp] at h
      rcases List.mem_cons.mp h with h2 | h2
      · exact Or.inl (by simp [h2])
      · rcases ih h2 with h3 | h3
        · rcases List.mem_cons.mp h3 with h4 | h4
          · exact Or.inl (by simp [h4])
          · exact Or.inl (by simp [h4])
        · exact Or.inr h3

theorem mem_nfcStr {l : JStr} {x : Char} (h : x ∈ nfcStr l) :
    x ∈ l ∨ ∃ t ∈ compTable, x = t.2.2 := by
  cases l with
  | nil => cases h
  | cons c r => exact mem_composeGo h

theorem head_composeGo : ∀ {r : JStr} {c h : Char}, (composeGo c r).head? = some h →
    h = c ∨ ∃ t ∈ compTable, h = t.2.2 := by
  intro r
  induction r with
  | nil =>
    intro c h hh
    rw [composeGo] at hh
    exact Or.inl (Option.some_inj.mp hh).symm
  | cons d r ih =>
    intro c h hh
    rw [composeGo] at hh
    cases hp : composePair c d with
    | some e =>
      rw [hp] at hh
      rcases ih hh with h2 | h2
      · rw [h2]
        exact Or.inr (composePair_out hp)
      · exact Or.inr h2
    | none =>
      rw [hp] at hh
      exact Or.inl (Option.some_inj.mp hh).symm

theorem getLast_composeGo : ∀ {r : JStr} {c x y : Char},
    (composeGo c r).getLast? = some x → (c :: r).getLast? = some y →
    x = y ∨ ∃ t ∈ compTable, x = t.2.2 := by
  intro r
  induction r with
  | nil =>
    intro c x y hx hy
    rw [composeGo] at hx
    rw [← Option.some_inj.mp hx, ← Option.some_inj.mp hy]
    exact Or.inl rfl
  | cons d r ih =>
    intro c x y hx hy
    rw [composeGo] at hx
    have hy' : (d :: r).getLast? = some y := by
      rw [show (c :: d :: r) = [c] ++ (d :: r) from rfl,
          List.getLast?_append_of_ne_nil [c] (by simp)] at hy
      exact hy
    cases hp : composePair c d with
    | some e =>
      rw [hp] at hx
      cases r with
      | nil =>
        rw [composeGo] at hx
        have hey : e = x := Option.some_inj.mp hx
        rw [← hey]
        exact Or.inr (composePair_out hp)
      | cons d2 r2 =>
        have hy2 : (e :: d2 :: r2).getLast? = some y := by
          rw [show (e :: d2 :: r2) = [e] ++ (d2 :: r2) from rfl,
              List.getLast?_append_of_ne_nil [e] (by simp)]
          rw [show (d :: d2 :: r2) = [d] ++ (d2 :: r2) from rfl,
              List.getLast?_append_of_ne_nil [d] (by simp)] at hy'
          exact hy'
        exact ih hx hy2
    | none =>
      rw [hp] at hx
      have hgne := composeGo_ne_nil r d
      rw [show (c :: composeGo d r) = [c] ++ composeGo d r from rfl,
          List.getLast?_append_of_ne_nil [c] hgne] at hx
      exact ih hx hy'

theorem compTable_out_not_second :
    ∀ t ∈ compTable, ∀ u ∈ compTable, u.2.1 ≠ t.2.2 := by decide

theorem composePair_none_of_out {a b : Char} (h : ∃ t ∈ compTable, b = t.2.2) :
    composePair a b = none := by
  obtain ⟨t, ht, hb⟩ := h
  unfold composePair
  rw [List.find?_eq_none.mpr]
  · rfl
  · intro u hu
    simp only [Bool.and_eq_true, beq_iff_eq, not_and]
    intro _ h2
    exact absurd (hb ▸ h2) (compTable_out_not_second t ht u hu)

theorem composeGo_normal : ∀ (r : JStr) (c : Char),
    (composeGo c r).Chain' (fun a b => composePair a b = none) := by
  intro r
  induction r with
  | nil => intro c; rw [composeGo]; exact List.chain'_singleton c
  | cons d r ih =>
    intro c
    rw [composeGo]
    cases hp : composePair c d with
    | some e => exact ih e
    | none =>
      rw [List.chain'_cons']
      refine ⟨?_, ih d⟩
      intro h hh
      rcases head_composeGo hh with h2 | h2
      · rw [h2]
        exact hp
      · exact composePair_none_of_out h2

theorem composeGo_of_chain : ∀ {r : JStr} {c : Char},
    (c :: r).Chain' (fun a b => composePair a b = none) → composeGo c r = c :: r := by
  intro r
  induction r with
  | nil => intro c _; rfl
  | cons d r ih =>
    intro c h
    rw [List.chain'_cons] at h
    rw [composeGo, h.1, ih h.2]

theorem nfc_idem (l : JStr) : nfcStr (nfcStr l) = nfcStr l := by
  cases l with
  | nil => rfl
  | cons c r =>
    rw [show nfcStr (c :: r) = composeGo c r from rfl]
    cases hg : composeGo c r with
    | nil => exact absurd hg (composeGo_ne_nil r c)
    | cons h t =>
      rw [show nfcStr (h :: t) = composeGo h t from rfl]
      rw [composeGo_of_chain (by rw [← hg]; exact composeGo_normal r c)]

theorem compTable_out_not_ws : ∀ t ∈ compTable, isJsSpace t.2.2 = false := by decide

theorem onlySp_nfcStr {l : JStr} (h : onlySp l) : onlySp (nfcStr l) := by
  intro c hc hws
  rcases mem_nfcStr hc with h2 | h2
  · exact h c h2 hws
  · obtain ⟨t, ht, hct⟩ := h2
    rw [hct, compTable_out_not_ws t ht] at hws
    cases hws

theorem out_ne_space {b : Char} (h : ∃ t ∈ compTable, b = t.2.2) : b ≠ ' ' := by
  obtain ⟨t, ht, hb⟩ := h
  intro hsp
  have := compTable_out_not_ws t ht
  rw [← hb, hsp] at this
  exact absurd this (by decide)

theorem noAdjSp_composeGo : ∀ {r : JStr} {c : Char},
    noAdjSp (c :: r) → noAdjSp (composeGo c r) := by
  intro r
  induction r with
  | nil => intro c _; rw [composeGo]; exact List.chain'_singleton c
  | cons d r ih =>
    intro c h
    unfold noAdjSp at h
    rw [List.chain'_cons] at h
    rw [composeGo]
    cases hp : composePair c d with
    | some e =>
      refine ih ?_
      unfold noAdjSp
      rw [List.chain'_cons']
      constructor
      · intro y hy hpair
        exact out_ne_space (composePair_out hp) hpair.1
      · have h2 := h.2
        rw [List.chain'_cons'] at h2
        exact h2.2
    | none =>
      unfold noAdjSp
      rw [List.chain'_cons']
      refine ⟨?_, ih h.2⟩
      intro y hy hpair
      rcases head_composeGo hy with h2 | h2
      · exact h.1 ⟨hpair.1, h2 ▸ hpair.2⟩
      · exact out_ne_space h2 hpair.2

theorem wsCanon_nfcStr {l : JStr} (h : wsCanon l) : wsCanon (nfcStr l) := by
  obtain ⟨h1, h2, h3, h4⟩ := h
  cases l with
  | nil => exact wsCanon_nil
  | cons c r =>
    rw [show nfcStr (c :: r) = composeGo c r from rfl]
    refine ⟨?_, noAdjSp_composeGo h2, ?_, ?_⟩
    · intro x hx hws
      rcases mem_composeGo hx with hm | hm
      · exact h1 x hm hws
      · obtain ⟨t, ht, hxt⟩ := hm
        rw [hxt, compTable_out_not_ws t ht] at hws
        cases hws
    · intro x hx
      rcases head_composeGo hx with hm | hm
      · rw [hm]
        exact h3 c rfl
      · obtain ⟨t, ht, hxt⟩ := hm
        rw [hxt]
        exact compTable_out_not_ws t ht
    · intro x hx
      cases hy : (c :: r).getLast? with
      | none => simp at hy
      | some y =>
        rcases getLast_composeGo hx hy with hm | hm
        · rw [hm]
          exact h4 y hy
        · obtain ⟨t, ht, hxt⟩ := hm
          rw [hxt]
          exact compTable_out_not_ws t ht

theorem collapseGo_id_of_canon : ∀ (l : JStr), onlySp l → noAdjSp l →
    (collapseGo false l = l ∧
     ((∀ h, l.head? = some h → isJsSpace h = false) → collapseGo true l = l)) := by
  intro l
  induction l with
  | nil => intro _ _; exact ⟨rfl, fun _ => rfl⟩
  | cons c r ih =>
    intro h1 h2
    have h1r : onlySp r := fun x hx => h1 x (List.mem_cons_of_mem _ hx)
    have h2r : noAdjSp r := by
      unfold noAdjSp at h2 ⊢
      rw [List.chain'_cons'] at h2
      exact h2.2
    have ihr := ih h1r h2r
    constructor
    · by_cases hc : isJsSpace c = true
      · have hcsp : c = ' ' := h1 c (by simp) hc
        rw [collapseGo, if_pos hc, if_neg (by simp)]
        rw [hcsp]
        rw [ihr.2 ?_]
        intro x hx
        by_cases hxws : isJsSpace x = true
        · exfalso
          have hxsp : x = ' ' := h1 x (List.mem_cons_of_mem _ (List.mem_of_mem_head? hx)) hxws
          unfold noAdjSp at h2
          rw [List.chain'_cons'] at h2
          exact h2.1 x hx ⟨hcsp, hxsp⟩
        · simpa using hxws
      · rw [collapseGo, if_neg hc, ihr.1]
    · intro hh
      have hc : isJsSpace c = false := hh c rfl
      rw [collapseGo, if_neg (by simp [hc]), ihr.1]

theorem collapseWs_id_of_canon {l : JStr} (h1 : onlySp l) (h2 : noAdjSp l) :
    collapseWs l = l := (collapseGo_id_of_canon l h1 h2).1

/-! ### Facts about the entity decoder, ellipsis strip, and conservative clamp -/

theorem entReplaceF_id_of_no_amp : ∀ (fuel : Nat) {s : JStr}, '&' ∉ s →
    Part001.entReplaceF fuel s = s := by
  intro fuel
  induction fuel with
  | zero => intro s _; rfl
  | succ n ih =>
    intro s h
    cases s with
    | nil => rfl
    | cons c r =>
      rw [Part001.entReplaceF, if_neg (by intro hc; exact h (by rw [← hc]; simp))]
      rw [ih (fun hr => h (List.mem_cons_of_mem _ hr))]

theorem mem_entReplaceF : ∀ (fuel : Nat) (s : JStr) (c : Char),
    c ∈ Part001.entReplaceF fuel s → c ∈ s ∨ ∃ e ∈ Part001.entities, c ∈ e.2 := by
  intro fuel
  induction fuel with
  | zero => intro s c h; exact Or.inl h
  | succ n ih =>
    intro s c h
    cases s with
    | nil => cases h
    | cons x r =>
      rw [Part001.entReplaceF] at h
      split at h
      · rename_i hx
        split at h
        · rename_i hcond
          rcases List.mem_append.mp h with h2 | h2
          · unfold Part001.entLookup at h2
            cases hf : Part001.entities.find? (fun e => e.1 == x :: (r.takeWhile isEntAlnum ++ [';'])) with
            | some e =>
              rw [hf] at h2
              exact Or.inr ⟨e, List.mem_of_find?_eq_some hf, h2⟩
            | none =>
              rw [hf] at h2
              rcases List.mem_cons.mp h2 with h3 | h3
              · exact Or.inl (by simp [h3])
              · rcases List.mem_append.mp h3 with h4 | h4
                · exact Or.inl (List.mem_cons_of_mem _
                    ((List.takeWhile_prefix isEntAlnum).sublist.mem h4))
                · rw [List.mem_singleton] at h4
                  rw [h4]
                  exact Or.inl (List.mem_cons_of_mem _
                    ((List.drop_suffix _ _).mem (List.mem_of_mem_head? hcond.2)))
          · rcases ih _ _ h2 with h3 | h3
            · exact Or.inl (List.mem_cons_of_mem _ ((List.drop_suffix _ _).mem h3))
            · exact Or.inr h3
        · rcases List.mem_cons.mp h with h2 | h2
          · exact Or.inl (by simp [h2])
          · rcases ih _ _ h2 with h3 | h3
            · exact Or.inl (List.mem_cons_of_mem _ h3)
            · exact Or.inr h3
      · rcases List.mem_cons.mp h with h2 | h2
        · exact Or.inl (by simp [h2])
        · rcases ih _ _ h2 with h3 | h3
          · exact Or.inl (List.mem_cons_of_mem _ h3)
          · exact Or.inr h3

theorem mem_stripEllF : ∀ (fuel : Nat) (s : JStr) (c : Char),
    c ∈ Part001.stripEllF fuel s → c ∈ s := by
  intro fuel
  induction fuel with
  | zero => intro s c h; exact h
  | succ n ih =>
    intro s c h
    cases s with
    | nil => cases h
    | cons x r =>
      rw [Part001.stripEllF] at h
      split at h
      · exact List.mem_cons_of_mem _ (ih _ _ h)
      · split at h
        · split at h
          · exact List.mem_cons_of_mem _ ((List.drop_suffix _ _).mem (ih _ _ h))
          · rcases List.mem_cons.mp h with h2 | h2
            · exact (by simp [h2])
            · exact List.mem_cons_of_mem _ (ih _ _ h2)
        · rcases List.mem_cons.mp h with h2 | h2
          · exact (by simp [h2])
          · exact List.mem_cons_of_mem _ (ih _ _ h2)

theorem stripEllF_no_ell : ∀ (fuel : Nat) (s : JStr), s.length ≤ fuel →
    '…' ∉ Part001.stripEllF fuel s := by
  intro fuel
  induction fuel with
  | zero =>
    intro s hlen h
    rw [Nat.le_zero, List.length_eq_zero] at hlen
    rw [hlen] at h
    cases h
  | succ n ih =>
    intro s hlen h
    cases s with
    | nil => cases h
    | cons x r =>
      rw [List.length_cons] at hlen
      rw [Part001.stripEllF] at h
      split at h
      · exact ih r (by omega) h
      · rename_i hell
        split at h
        · split at h
          · refine ih _ ?_ h
            calc (r.drop (r.takeWhile (fun x => x = '.')).length).length
                ≤ r.length := (List.drop_suffix _ _).length_le
              _ ≤ n := by omega
          · rcases List.mem_cons.mp h with h2 | h2
            · exact hell h2.symm
            · exact ih r (by omega) h2
        · rcases List.mem_cons.mp h with h2 | h2
          · exact hell h2.symm
          · exact ih r (by omega) h2

theorem stripEllF_id : ∀ (fuel : Nat) {s : JStr}, '.' ∉ s → '…' ∉ s →
    Part001.stripEllF fuel s = s := by
  intro fuel
  induction fuel with
  | zero => intro s _ _; rfl
  | succ n ih =>
    intro s hd he
    cases s with
    | nil => rfl
    | cons x r =>
      rw [Part001.stripEllF, if_neg (by intro hx; exact he (by rw [← hx]; simp)),
        if_neg (by intro hx; exact hd (by rw [← hx]; simp))]
      rw [ih (fun h2 => hd (List.mem_cons_of_mem _ h2)) (fun h2 => he (List.mem_cons_of_mem _ h2))]

theorem lastIdxSp_lt_length : ∀ {l : JStr} {k : Nat},
    Part001.lastIdxSp l = some k → k < l.length := by
  intro l
  induction l with
  | nil => intro k h; cases h
  | cons c r ih =>
    intro k h
    rw [Part001.lastIdxSp] at h
    cases hr : Part001.lastIdxSp r with
    | some k2 =>
      rw [hr] at h
      have hk2 := ih hr
      rw [← Option.some_inj.mp h]
      simp only [List.length_cons]
      omega
    | none =>
      rw [hr] at h
      by_cases hc : c = ' '
      · rw [if_pos hc] at h
        rw [← Option.some_inj.mp h]
        simp
      · rw [if_neg hc] at h
        cases h

theorem conservative_le (title : JStr) : (Part001.conservative title).length ≤ 60 := by
  unfold Part001.conservative
  dsimp only
  split
  · split
    · rename_i cut hli
      split
      · rename_i hcut
        have hk := lastIdxSp_lt_length hli
        have h61 : ((Part001.finalizeHeadline title).take 61).length ≤ 61 := by
          simp [List.length_take]
        refine le_trans (length_jsTrim_le _) ?_
        calc (((Part001.finalizeHeadline title).take 61).take cut).length
            ≤ cut := by simp [List.length_take]
          _ ≤ 60 := by omega
      · refine le_trans (length_jsTrim_le _) ?_
        simp [List.length_take]
    · refine le_trans (length_jsTrim_le _) ?_
      simp [List.length_take]
  · rename_i hle
    omega

/-- C2: the shortener always fits the budget.  `fixNominationEndings` never
fires on a finalized headline (Lemma B), finalized headlines fit `maxLength`
(Lemma A), and the conservative clamp of the condense variant never exceeds
60 characters; the spec's escape disjunct is never needed. -/
theorem c2_shortener_fits (text : JStr) (maxLength : Nat) (title : JStr) :
    (fixNominationEndings (finalizeHeadline text maxLength)).length ≤ maxLength ∧
    (Part001.conservative title).length ≤ 60 :=
  ⟨fix_finalize_len text maxLength, conservative_le title⟩

theorem compTable_out_ne : ∀ t ∈ compTable, t.2.2 ≠ '&' ∧ t.2.2 ≠ '.' ∧ t.2.2 ≠ '…' := by
  decide

/-- C6 counterexample: the normaliser is not idempotent.  On the
double-encoded `"&amp;amp;"` the first pass yields `"&amp;"` and the second
pass decodes that to `"&"`. -/
theorem c6_counterexample :
    Part001.finalizeHeadline (Part001.finalizeHeadline (("&amp;amp;").data)) ≠
      Part001.finalizeHeadline (("&amp;amp;").data) := by decide

/-- C6 (amended): the normaliser is idempotent on inputs that contain no
`&` (no entity can be re-decoded), no `.` and no `…` (no new ellipsis run can
form after stripping). -/
theorem c6_normalize_idem (x : JStr) (h1 : '&' ∉ x) (h2 : '.' ∉ x) (h3 : '…' ∉ x) :
    Part001.finalizeHeadline (Part001.finalizeHeadline x) = Part001.finalizeHeadline x := by
  have hdx : Part001.decodeHtmlEntitiesAll x = nfcStr x := by
    unfold Part001.decodeHtmlEntitiesAll
    rw [entReplaceF_id_of_no_amp _ h1]
  have hmem : ∀ c ∈ Part001.finalizeHeadline x,
      c ∈ x ∨ c = ' ' ∨ ∃ t ∈ compTable, c = t.2.2 := by
    intro c hc
    unfold Part001.finalizeHeadline at hc
    rcases mem_nfcStr hc with hc2 | hout
    · have hc3 := mem_jsTrim hc2
      rcases mem_collapseWs hc3 with hc4 | hsp
      · have hc5 := mem_stripEllF _ _ _ hc4
        rw [hdx] at hc5
        rcases mem_nfcStr hc5 with hc6 | hout
        · exact Or.inl hc6
        · exact Or.inr (Or.inr hout)
      · exact Or.inr (Or.inl hsp)
    · exact Or.inr (Or.inr hout)
  have h1y : '&' ∉ Part001.finalizeHeadline x := by
    intro hy
    rcases hmem '&' hy with hm | hm | ⟨t, ht, hm⟩
    · exact h1 hm
    · exact absurd hm (by decide)
    · exact (compTable_out_ne t ht).1 hm.symm
  have h2y : '.' ∉ Part001.finalizeHeadline x := by
    intro hy
    rcases hmem '.' hy with hm | hm | ⟨t, ht, hm⟩
    · exact h2 hm
    · exact absurd hm (by decide)
    · exact (compTable_out_ne t ht).2.1 hm.symm
  have h3y : '…' ∉ Part001.finalizeHeadline x := by
    intro hy
    rcases hmem '…' hy with hm | hm | ⟨t, ht, hm⟩
    · exact h3 hm
    · exact absurd hm (by decide)
    · exact (compTable_out_ne t ht).2.2 hm.symm
  have hwz : wsCanon (jsTrim (collapseWs (Part001.stripEllF
      (Part001.decodeHtmlEntitiesAll x).length (Part001.decodeHtmlEntitiesAll x)))) :=
    wsCanon_trim_collapse _
  have hyn : nfcStr (Part001.finalizeHeadline x) = Part001.finalizeHeadline x := by
    unfold Part001.finalizeHeadline
    exact nfc_idem _
  have hwy : wsCanon (Part001.finalizeHeadline x) := by
    unfold Part001.finalizeHeadline
    exact wsCanon_nfcStr hwz
  have hdy : Part001.decodeHtmlEntitiesAll (Part001.finalizeHeadline x) =
      Part001.finalizeHeadline x := by
    unfold Part001.decodeHtmlEntitiesAll
    rw [entReplaceF_id_of_no_amp _ h1y, hyn]
  have hu : Part001.finalizeHeadline (Part001.finalizeHeadline x) =
      nfcStr (jsTrim (collapseWs (Part001.stripEllF
        (Part001.decodeHtmlEntitiesAll (Part001.finalizeHeadline x)).length
        (Part001.decodeHtmlEntitiesAll (Part001.finalizeHeadline x))))) := rfl
  rw [hu, hdy, stripEllF_id _ h2y h3y, collapseWs_id_of_canon hwy.1 hwy.2.1,
    jsTrim_id_of_edges hwy.2.2.1 hwy.2.2.2, hyn]

theorem c6_normalize_idem_witness :
    Part001.finalizeHeadline (Part001.finalizeHeadline (("Olá mundo").data)) =
      Part001.finalizeHeadline (("Olá mundo").data) :=
  c6_normalize_idem (("Olá mundo").data) (by decide) (by decide) (by decide)

/-! ### Character membership through the full pipelines -/

theorem mem_applySplitters (maxLength : Nat) : ∀ (seps : List JStr) {t : JStr} {c : Char},
    c ∈ applySplitters maxLength seps t → c ∈ t := by
  intro seps
  induction seps with
  | nil => intro t c h; exact h
  | cons sep rest ih =>
    intro t c h
    rw [applySplitters] at h
    split at h
    · split at h
      · exact mem_breakAtSub (mem_jsTrim h)
      · exact ih h
    · exact ih h

theorem mem_applyRounds (maxLength : Nat) : ∀ (rounds : List (List JStr)) {t : JStr} {c : Char},
    c ∈ applyRounds maxLength rounds t → c ∈ t ∨ c = ' ' := by
  intro rounds
  induction rounds with
  | nil => intro t c h; exact Or.inl h
  | cons rx rest ih =>
    intro t c h
    rw [applyRounds] at h
    split at h
    · exact Or.inl h
    · rcases ih h with h2 | h2
      · rcases mem_collapseWs (mem_jsTrim h2) with h3 | h3
        · exact Or.inl (mem_replaceAltsF h3)
        · exact Or.inr h3
      · exact Or.inr h2

theorem mem_finalizeT4 {text : JStr} {maxLength : Nat} {c : Char}
    (h : c ∈ finalizeT4 text maxLength) : c ∈ strip3 text ∨ c = ' ' := by
  unfold finalizeT4 at h
  dsimp only at h
  have base : ∀ {x : Char},
      x ∈ applyRounds maxLength [removalRound1, removalRound2, removalRound3]
        (applySplitters maxLength splitters (jsTrim (collapseWs (strip3 text)))) →
      x ∈ strip3 text ∨ x = ' ' := by
    intro x hx
    rcases mem_applyRounds _ _ hx with h5 | h5
    · rcases mem_collapseWs (mem_jsTrim (mem_applySplitters _ _ h5)) with h6 | h6
      · exact Or.inl h6
      · exact Or.inr h6
    · exact Or.inr h5
  split at h
  · have h2 := mem_jsTrim h
    rcases mem_packWords h2 with ⟨w, hw, hc⟩ | h3 | h3
    · exact base (mem_splitSpace hw hc).1
    · cases h3
    · exact Or.inr h3
  · exact base h

theorem mem_stripNomeadoTail {t : JStr} {c : Char} (h : c ∈ stripNomeadoTail t) : c ∈ t := by
  unfold stripNomeadoTail at h
  rw [List.mem_reverse] at h
  have h2 := (List.dropWhile_suffix isJsSpace).mem h
  have h3 := (List.drop_suffix 7 t.reverse).mem h2
  rw [List.mem_reverse] at h3
  exact h3

theorem mem_replaceEnomeado {t : JStr} {c : Char} (h : c ∈ replaceEnomeado t) :
    c ∈ t ∨ c ∈ (" nomeado").data := by
  unfold replaceEnomeado at h
  split at h
  · rename_i x0 x1 x2 x3 x4 x5 x6 s7 e8 rest heq
    split at h
    · rcases List.mem_append.mp h with h2 | h2
      · rw [List.mem_reverse] at h2
        have h3 := (List.dropWhile_suffix isJsSpace).mem h2
        have h4 : c ∈ t.reverse := by rw [heq]; simp [h3]
        rw [List.mem_reverse] at h4
        exact Or.inl h4
      · exact Or.inr h2
    · exact Or.inl h
  · exact Or.inl h

theorem mem_finalizeTail {t4 : JStr} {c : Char} (h : c ∈ finalizeTail t4) :
    c ∈ t4 ∨ c = ' ' ∨ c ∈ (" nomeado").data := by
  unfold finalizeTail at h
  dsimp only at h
  have key : ∀ {x : Char},
      x ∈ replaceEnomeado (jsTrim (joinSpace (dropBadLoop (splitSpace t4)))) →
      x ∈ t4 ∨ x = ' ' ∨ x ∈ (" nomeado").data := by
    intro x hx
    rcases mem_replaceEnomeado hx with h2 | h2
    · rcases mem_joinSpace (mem_jsTrim h2) with ⟨w, hw, hc⟩ | h3
      · exact Or.inl (mem_splitSpace (mem_dropBadLoop hw) hc).1
      · exact Or.inr (Or.inl h3)
    · exact Or.inr (Or.inr h2)
  split at h
  · exact key (mem_stripNomeadoTail (mem_jsTrim h))
  · exact key h

theorem mem_fixNomination {t : JStr} {c : Char} (h : c ∈ fixNominationEndings t) :
    c ∈ t ∨ c ∈ assumeCargo := by
  unfold fixNominationEndings at h
  split at h
  · exact Or.inl h
  · split at h
    · rcases List.mem_append.mp (mem_jsTrim h) with h2 | h2
      · exact Or.inl (List.mem_of_mem_take h2)
      · exact Or.inr h2
    · split at h
      · rcases List.mem_append.mp (mem_jsTrim h) with h2 | h2
        · exact Or.inl (List.mem_of_mem_take h2)
        · exact Or.inr h2
      · exact Or.inl h

theorem mem_conservative {title : JStr} {c : Char} (h : c ∈ Part001.conservative title) :
    c ∈ Part001.finalizeHeadline title := by
  unfold Part001.conservative at h
  dsimp only at h
  split at h
  · split at h
    · split at h
      · exact List.mem_of_mem_take (List.mem_of_mem_take (mem_jsTrim h))
      · exact List.mem_of_mem_take (mem_jsTrim h)
    · exact List.mem_of_mem_take (mem_jsTrim h)
  · exact h

theorem not_ell_p1_finalize (title : JStr) : '…' ∉ Part001.finalizeHeadline title := by
  intro h
  unfold Part001.finalizeHeadline at h
  rcases mem_nfcStr h with h2 | ⟨t, ht, hout⟩
  · rcases mem_collapseWs (mem_jsTrim h2) with h3 | h3
    · exact stripEllF_no_ell _ _ le_rfl h3
    · exact absurd h3 (by decide)
  · exact (compTable_out_ne t ht).2.2 hout.symm

/-- C3 counterexample: the conservative clamp slices mid-word.  On
`"aaaa "` followed by sixty `b`s the 61-character window has its last space
at index 4, the `cut > 40` branch is not taken, and the fallback character
slice cuts the second word to fifty-five `b`s — a word that does not occur
in the normalised input, and an output that does not end at a space. -/
theorem c3_counterexample :
    (splitSpace (Part001.conservative ((("aaaa ").data) ++ List.replicate 60 'b'))).getLast?
      = some (List.replicate 55 'b') ∧
    List.replicate 55 'b' ∉
      splitSpace (Part001.finalizeHeadline ((("aaaa ").data) ++ List.replicate 60 'b')) := by
  decide

/-- C3 (amended): neither shortener ever emits the ellipsis character `…`;
the ASCII sequence `...` and mid-word cuts are not excluded (the conservative
fallback may slice mid-word, and stop-word removal can splice dots). -/
theorem c3_no_ellipsis (text : JStr) (maxLength : Nat) (title : JStr) :
    '…' ∉ fixNominationEndings (finalizeHeadline text maxLength) ∧
    '…' ∉ Part001.conservative title := by
  constructor
  · intro h
    rcases mem_fixNomination h with h2 | h2
    · by_cases htext : text = []
      · have hfin : finalizeHeadline text maxLength = text := by
          unfold finalizeHeadline
          rw [if_pos htext]
        rw [hfin, htext] at h2
        cases h2
      · rw [finalizeHeadline_decomp text maxLength htext] at h2
        rcases mem_finalizeTail h2 with h3 | h3 | h3
        · rcases mem_finalizeT4 h3 with h4 | h4
          · exact not_dots_strip3 h4
          · exact absurd h4 (by decide)
        · exact absurd h3 (by decide)
        · exact absurd h3 (by decide)
    · exact absurd h2 (by decide)
  · intro h
    exact not_ell_p1_finalize title (mem_conservative h)
